import Mathlib

/-!
# prpl-server-go: build selection, push-header compilation, header application

A shallow embedding of `build.go` and `server.go`.

Conventions of the embedding
* Go strings are Lean strings; `+` on strings is `++`.
* A Go map that the code ranges over (the push manifest, its per-file asset
  maps, the route table) is an association list: the list order is the order
  in which `range` visits the entries, which Go leaves unspecified, so every
  statement is quantified over all orders.  A Go map has each key once; where
  that matters a theorem assumes the key list is `Nodup`.
* A Go map that is only written and looked up (`PushHeaders`, `http.Header`)
  is a function from keys to optional values.
* The file system is an input (`Disk`): what `ReadManifest` reads, the calls
  that `filepath.Walk` makes to its callback, what `root.Open` and
  `ioutil.ReadAll` yield.  User-Agent classification (`browserCapabilities`),
  the translation of capability tokens (`newCapabilities`), the template
  factory (`createTemplate`), the next handler and `http.ServeContent` are
  inputs of the functions that call them.
* The global map `files` is passed in and handed back by the functions that
  write it.
* A function whose Go code can panic returns an `Option`; `none` is the panic.
-/

namespace prpl

/-! ## Capability masks -/

/-- Modelled from the spec: the declaration of the type `capability` is not in
the source files at hand; the data model says "an integer bitmask; each bit =
one discrete browser feature".  Masks are non-negative. -/
abbrev capability := Nat

/-- Bits of `n` that are set, counted over at most `fuel` binary digits. -/
def popCount : Nat → Nat → Nat
  | 0, _ => 0
  | fuel + 1, n => n % 2 + popCount fuel (n / 2)

/-- Modelled from the spec: the method `capability.size` is not in the source
files at hand; the data model says "`size()` = population count".  A number
`c` has at most `c` binary digits, so `c` digits are inspected
(`size_eq_digits`). -/
def capability.size (c : capability) : Nat := popCount c c

/-! ## Data model (build.go, lines 17-49) -/

/-- The struct `linkHeader`. -/
structure linkHeader where
  file : String
  as : String
  deriving DecidableEq, Repr

/-- The method `linkHeader.String`: `fmt.Sprintf("<%s>; rel=preload; as=%s", l.file, l.as)`. -/
def linkHeader.String (l : linkHeader) : String :=
  "<" ++ l.file ++ ">; rel=preload; as=" ++ l.as

/-- The map type `PushHeaders`: `map[string][]linkHeader`. -/
abbrev PushHeaders := String → Option (List linkHeader)

/-- The empty map literal `PushHeaders{}`. -/
def PushHeaders.empty : PushHeaders := fun _ => none

/-- The assignment `m[k] = v`. -/
def PushHeaders.set (m : PushHeaders) (k : String) (v : List linkHeader) : PushHeaders :=
  fun q => if q = k then some v else m q

/-- Modelled from the spec: the interface `Template` and the factory type
`createTemplateFn` are declared outside the source files at hand; the factory
"accepts raw bytes" and yields a renderable template.  A template is
represented by what it was made of: a name, the bytes and a modification
time. -/
structure Template where
  name : String
  data : String
  modTime : Int

/-- The struct `file`; the bytes of `data` are a string. -/
structure file where
  data : String
  size : Int
  modTime : Int

/-- The type of the global map `files`: `map[string]*file`. -/
abbrev Files := String → Option file

/-- The assignment `files[k] = v`. -/
def Files.set (m : Files) (k : String) (v : file) : Files :=
  fun q => if q = k then some v else m q

/-- The struct `build`; a nil `template` is `none`. -/
structure build where
  name : String
  configOrder : Int
  requirements : capability
  entrypoint : String
  template : Option Template
  pushHeaders : PushHeaders

/-- The slice type `builds`. -/
abbrev builds := List build

/-! ## Selection (build.go, lines 234-246) -/

/-- The method `build.canServe`: `client&b.requirements == b.requirements`. -/
def build.canServe (b : build) (client : capability) : Bool :=
  client &&& b.requirements == b.requirements

/-- The method `builds.findBuild`: the first build of the slice that can serve
the client, `none` for the `nil` result. -/
def findBuild : builds → capability → Option build
  | [], _ => none
  | b :: rest, client => if b.canServe client then some b else findBuild rest client

/-! ## Lexical path joining (Go standard library, package `path`) -/

/-- The backtracking loop of `path.Clean` for a `..` element, started after
the first `out.w--`: `for out.w > dotdot && out.index(out.w) != '/' { out.w-- }`.
The argument is the current `out.w`, the result the final one. -/
def cleanBack (out : List Char) (dotdot : Nat) : Nat → Nat
  | 0 => 0
  | w + 1 =>
    if decide (w + 1 > dotdot) && (out.getD (w + 1) '/' != '/') then cleanBack out dotdot w
    else w + 1

/-- The main loop `for r < n` of `path.Clean`.  The second argument is the
unread part `path[r:]`, the third the buffer written so far (`out.w` is its
length), the fourth `dotdot`.  Every round reads at least one byte, so a fuel
of as many rounds as there are unread bytes is never exhausted
(`cleanLoop_fuel`). -/
def cleanLoop (rooted : Bool) : Nat → List Char → List Char → Nat → List Char
  | 0, _, out, _ => out
  | _ + 1, [], out, _ => out
  | fuel + 1, c :: rest, out, dotdot =>
    if c == '/' then
      -- empty path element
      cleanLoop rooted fuel rest out dotdot
    else if c == '.' && (rest.isEmpty || rest.head? == some '/') then
      -- . element
      cleanLoop rooted fuel rest out dotdot
    else if c == '.' && rest.head? == some '.'
        && (rest.tail.isEmpty || rest.tail.head? == some '/') then
      -- .. element: remove to last /
      if out.length > dotdot then
        cleanLoop rooted fuel rest.tail
          (out.take (cleanBack out dotdot (out.length - 1))) dotdot
      else if !rooted then
        let out1 := if out.length > 0 then out ++ ['/'] else out
        let out2 := out1 ++ ['.', '.']
        cleanLoop rooted fuel rest.tail out2 out2.length
      else
        cleanLoop rooted fuel rest.tail out dotdot
    else
      -- real path element: add slash if needed, copy element
      let out1 :=
        if (rooted && out.length != 1) || (!rooted && out.length != 0) then out ++ ['/']
        else out
      cleanLoop rooted fuel ((c :: rest).dropWhile (· != '/'))
        (out1 ++ (c :: rest).takeWhile (· != '/')) dotdot

/-- The function `path.Clean` of the Go standard library. -/
def pathClean (path : String) : String :=
  match path.data with
  | [] => "."
  | c :: rest =>
    let rooted := c == '/'
    let out :=
      if rooted then cleanLoop rooted (rest.length + 1) rest ['/'] 1
      else cleanLoop rooted (rest.length + 2) (c :: rest) [] 0
    if out.isEmpty then "." else String.mk out

/-- The function `path.Join` of the Go standard library: the elements from the
first non-empty one on, separated by slashes, then cleaned; the empty string
when every element is empty.  On a slash-separated file system
`filepath.Join` is the same function. -/
def pathJoin (elem : List String) : String :=
  match elem.dropWhile (· == "") with
  | [] => ""
  | es => pathClean ("/".intercalate es)

/-! ## Configuration and manifest types

`ProjectConfig`, `Routes` and the result type of `ReadManifest` are declared
in files of the package that are not at hand; they are given the fields and
shapes that `build.go` uses. -/

/-- Modelled from the spec: the element type of `ProjectConfig.Builds` is
declared outside the source files at hand; a build declaration is
"`{name, requiredCapabilityTokens[]}`", read by `loadBuilds` as the fields
`Name` and `BrowserCapabilities`. -/
structure BuildConfig where
  Name : String
  BrowserCapabilities : List String

/-- Modelled from the spec: the struct `ProjectConfig` is declared outside the
source files at hand; the configuration holds "ordered build declarations; an
`entrypoint` filename; a `shell` document path", read by `build.go` as the
fields `Entrypoint`, `Shell` and `Builds`. -/
structure ProjectConfig where
  Entrypoint : String
  Shell : String
  Builds : List BuildConfig

/-- Modelled from the spec: the map type `Routes` is declared outside the
source files at hand; it is a "mapping from a user-visible route pattern to
the name of the fragment", here in `range` order. -/
abbrev Routes := List (String × String)

/-- Modelled from the spec: the dependency descriptor of the push manifest is
declared outside the source files at hand; it is "`{type: string}`", read by
`newBuild` as the field `Type`. -/
structure Asset where
  type : String

/-- Modelled from the spec: the result type of `ReadManifest` is declared
outside the source files at hand; the manifest is
"`{ [servedFile]: { [assetPath]: {type: string} } }`", here with both levels
in `range` order. -/
abbrev PushManifest := List (String × List (String × Asset))

/-- The index expression `pushManifest[file]`: the asset map stored under
`file`, the nil (empty) map when the key is absent. -/
def PushManifest.get (m : PushManifest) (file : String) : List (String × Asset) :=
  (m.lookup file).getD []

/-! ## Push-header compilation (build.go, lines 161-220) -/

/-- The link built for one manifest dependency:
`linkHeader{file: path.Join(prefix, p), as: asset.Type}`. -/
def assetLink (pfx : String) (pa : String × Asset) : linkHeader :=
  { file := pathJoin [pfx, pa.1], as := pa.2.type }

/-- The loop `for file, assets := range pushManifest` (lines 165-177). -/
def manifestHeaders (pfx : String) (pushManifest : PushManifest) (pushHeaders : PushHeaders) :
    PushHeaders :=
  pushManifest.foldl
    (fun ph fa => ph.set (pathJoin [pfx, fa.1]) (fa.2.map (assetLink pfx))) pushHeaders

/-- The two deduplicating loops (lines 193-202 and 208-217): the state is the
set of canonical strings seen and the header list. -/
def addLinks (pfx : String) (assets : List (String × Asset))
    (st : List String × List linkHeader) : List String × List linkHeader :=
  assets.foldl
    (fun st pa =>
      let link := assetLink pfx pa
      if link.String ∈ st.1 then st else (link.String :: st.1, st.2 ++ [link]))
    st

/-- The body of the loop `for route, fragment := range routes` up to the final
store (lines 180-217): the header list of one route. -/
def routeHeaders (pfx shell fragment : String) (pushManifest : PushManifest) : List linkHeader :=
  let h0 : linkHeader :=
    { file := pathJoin [pfx, "bower_components/webcomponentsjs/webcomponents-loader.js"],
      as := "script" }
  let h1 : linkHeader := { file := pathJoin [pfx, shell], as := "document" }
  let st := addLinks pfx (pushManifest.get shell) ([h1.String, h0.String], [h0, h1])
  let headers := st.2 ++ [{ file := pathJoin [pfx, fragment], as := "document" }]
  (addLinks pfx (pushManifest.get fragment) (st.1, headers)).2

/-- The loop `for route, fragment := range routes` (lines 179-220).  Each round
reads `config.Shell`; with a nil `config` that is a nil-pointer panic, the
result `none`. -/
def routeLoop (config : Option ProjectConfig) (pfx : String) (pushManifest : PushManifest) :
    Routes → PushHeaders → Option PushHeaders
  | [], ph => some ph
  | (route, fragment) :: rest, ph =>
    match config with
    | none => none
    | some c =>
      routeLoop config pfx pushManifest rest
        (ph.set route (routeHeaders pfx c.Shell fragment pushManifest))

/-! ## The directory walk of `newBuild` (build.go, lines 120-156) -/

/-- The parts of `os.FileInfo` the walk callback reads. -/
structure FileInfo where
  IsDir : Bool
  Size : Int
  ModTime : Int

/-- The file system as `newBuild` sees it.
* `ReadManifest p` is the manifest that `ReadManifest(p)` returns (its error is
  ignored by the code).
* `Walk dir` lists the calls that `filepath.Walk(dir, fn)` makes to `fn`, in
  order, for as long as `fn` returns nil: the path and the `FileInfo` passed.
  The `FileInfo` is `none` where `Walk` passes nil because `lstat` of the path
  failed; for a `dir` that does not exist the list is that one call.
* `Rel base target` is the string that `filepath.Rel(base, target)` returns
  (its error is ignored by the code).
* `Open root name` is the content that `root.Open(name)` followed by
  `ioutil.ReadAll` yields, `none` when either fails. -/
structure Disk where
  ReadManifest : String → PushManifest
  Walk : String → List (String × Option FileInfo)
  Rel : String → String → String
  Open : String → String → Option String

/-- The double quote character as a string. -/
def quote : String := String.singleton (Char.ofNat 34)

/-- The call `bytes.Replace(s, old, new, 1)` on the bytes of strings: the first
occurrence of `old` is replaced (an empty `old` matches at the start). -/
def replaceOnce (old new : List Char) : List Char → List Char
  | [] => if old.isEmpty then new else []
  | c :: rest =>
    if old.isPrefixOf (c :: rest) then new ++ (c :: rest).drop old.length
    else c :: replaceOnce old new rest

/-- The callback passed to `filepath.Walk` (lines 120-156).  The state is the
local variable `template` and the global `files`.  The result is `none` when
the callback panics (`info.IsDir()` on a nil `FileInfo`); otherwise the flag
says whether the callback returned nil (`true`) or an error (`false`).  The
factory `createTemplate` is an input and is taken to return. -/
def walkFn (root entrypoint name version : String)
    (createTemplate : String → String → Int → Template) (disk : Disk)
    (path : String) (info : Option FileInfo) (st : Option Template × Files) :
    Option (Bool × (Option Template × Files)) :=
  match info with
  | none => none
  | some info =>
    if info.IsDir then some (true, st)
    else
      let filename := disk.Rel root path
      if filename == entrypoint then
        match disk.Open root filename with
        | none => some (false, st)
        | some data =>
          -- add version to path
          let data :=
            String.mk
              (replaceOnce ("<base href=" ++ quote ++ "/" ++ name ++ "/" ++ quote ++ ">").data
                ("<base href=" ++ quote ++ version ++ name ++ "/" ++ quote ++ ">").data
                data.data)
          let template := createTemplate entrypoint data info.ModTime
          some (true,
            (some template,
              st.2.set filename { data := data, size := info.Size, modTime := info.ModTime }))
      else some (true, st)

/-- The call `filepath.Walk(buildDir, fn)` over the calls it makes: it stops at
the first error that `fn` returns (the code ignores that error) and panics
when `fn` does. -/
def walkLoop (fn : String → Option FileInfo → Option Template × Files →
      Option (Bool × (Option Template × Files))) :
    List (String × Option FileInfo) → Option Template × Files → Option (Option Template × Files)
  | [], st => some st
  | (path, info) :: rest, st =>
    match fn path info st with
    | none => none
    | some (false, st1) => some st1
    | some (true, st1) => walkLoop fn rest st1

/-- The function `newBuild`.  The last argument is the global `files` before
the call; the result is the build and `files` after it, `none` when the code
panics. -/
def newBuild (config : Option ProjectConfig) (configOrder : Int) (name : String)
    (requirements : capability) (entrypoint buildDir root : String) (routes : Routes)
    (version : String) (createTemplate : String → String → Int → Template) (disk : Disk)
    (files : Files) : Option (build × Files) :=
  let pushManifest := disk.ReadManifest (pathJoin [buildDir, "push-manifest.json"])
  match walkLoop (walkFn root entrypoint name version createTemplate disk) (disk.Walk buildDir)
      (none, files) with
  | none => none
  | some (template, files1) =>
    -- create map of routes -> push headers
    let pfx := version ++ name ++ "/"
    match routeLoop config pfx pushManifest routes
        (manifestHeaders pfx pushManifest PushHeaders.empty) with
    | none => none
    | some pushHeaders =>
      some
        ({ name := name
           configOrder := configOrder
           requirements := requirements
           entrypoint := entrypoint
           template := template
           pushHeaders := pushHeaders },
          files1)

/-! ## The registry (build.go, lines 53-109) -/

/-- The method `byPriority.Less`, on the two elements it indexes. -/
def byPriority.Less (a b : build) : Bool :=
  let sizeDiff : Int := (a.requirements.size : Int) - (b.requirements.size : Int)
  if sizeDiff == 0 then decide (a.configOrder < b.configOrder)
  else decide (sizeDiff > 0)

/-- Insertion of one element before the first element it is less than. -/
def sortInsert {α : Type} (less : α → α → Bool) (a : α) : List α → List α
  | [] => [a]
  | b :: l => if less a b then a :: b :: l else b :: sortInsert less a l

/-- The call `sort.Sort` of the Go standard library, as an insertion sort.
`sort.Sort` promises a permutation in which no later element is less than an
earlier one; `sortSort_unique` shows that for `byPriority.Less` on builds of
distinct `configOrder` only one list meets that promise, so the choice of
algorithm is immaterial. -/
def sortSort {α : Type} (less : α → α → Bool) : List α → List α
  | [] => []
  | a :: l => sortInsert less a (sortSort less l)

/-- The entrypoint name chosen at lines 55-58. -/
def entrypointOf (config : Option ProjectConfig) : String :=
  match config with
  | some c => if c.Entrypoint != "" then c.Entrypoint else "index.html"
  | none => "index.html"

/-- The loop `for i, build := range config.Builds` (lines 64-70); the last two
arguments are the slice appended to so far and the global `files`. -/
def loadLoop (config : Option ProjectConfig) (entrypoint root : String) (routes : Routes)
    (version : String) (createTemplate : String → String → Int → Template)
    (newCapabilities : List String → capability) (disk : Disk) :
    Nat → List BuildConfig → builds → Files → Option (builds × Files)
  | _, [], acc, files => some (acc, files)
  | i, b :: rest, acc, files =>
    if b.Name == "" then
      loadLoop config entrypoint root routes version createTemplate newCapabilities disk (i + 1)
        rest acc files
    else
      match newBuild config (i : Int) b.Name (newCapabilities b.BrowserCapabilities)
          (pathJoin [b.Name, entrypoint]) (pathJoin [root, b.Name]) root routes version
          createTemplate disk files with
      | none => none
      | some (nb, files1) =>
        loadLoop config entrypoint root routes version createTemplate newCapabilities disk
          (i + 1) rest (acc ++ [nb]) files1

/-- The function `loadBuilds`.  The last argument is the global `files` before
the call; the result is the registry and `files` after it, `none` when the
code panics.  The sanity check after the sort only logs and is left out. -/
def loadBuilds (config : Option ProjectConfig) (root : String) (routes : Routes)
    (version : String) (createTemplate : String → String → Int → Template)
    (newCapabilities : List String → capability) (disk : Disk) (files : Files) :
    Option (builds × Files) :=
  let entrypoint := entrypointOf config
  let unsorted : Option (builds × Files) :=
    match config with
    | none =>
      (newBuild config 0 "" 0 entrypoint root root routes version createTemplate disk
        files).map fun bf => ([bf.1], bf.2)
    | some c =>
      if c.Builds.length == 0 then
        (newBuild config 0 "" 0 entrypoint root root routes version createTemplate disk
          files).map fun bf => ([bf.1], bf.2)
      else
        loadLoop config entrypoint root routes version createTemplate newCapabilities disk 0
          c.Builds [] files
  unsorted.map fun bf => (sortSort byPriority.Less bf.1, bf.2)

/-! ## Request handling (server.go) -/

/-- The cache policy `CacheImmutable`. -/
def CacheImmutable : String := "public, max-age=31536000, immutable"

/-- The cache policy `CacheNever`. -/
def CacheNever : String := "public, max-age=0"

/-- The cache policy `CacheNeverPrivate`. -/
def CacheNeverPrivate : String := "private, max-age=0"

/-- The type `http.Header`: header name to its values, no values when the name
is absent.  The names used by the code are already in canonical form. -/
abbrev Header := String → List String

/-- The method `http.Header.Set`. -/
def Header.Set (h : Header) (key value : String) : Header :=
  fun q => if q = key then [value] else h q

/-- The method `http.Header.Add`. -/
def Header.Add (h : Header) (key value : String) : Header :=
  fun q => if q = key then h q ++ [value] else h q

/-- The method `http.Header.Del`. -/
def Header.Del (h : Header) (key : String) : Header :=
  fun q => if q = key then [] else h q

/-- What has been written to the response: a status code and a body. -/
inductive Body where
  /-- nothing written yet -/
  | unwritten
  /-- a status code and the bytes that follow it -/
  | written (code : Nat) (content : String)

/-- The state of an `http.ResponseWriter`: its header map, whether it
implements `http.Pusher`, the `Push` calls made (target and the single
`Cache-Control` value of the push options), and the body. -/
structure ResponseWriter where
  header : Header
  isPusher : Bool
  pushed : List (String × String)
  body : Body

/-- The parts of `http.Request` the handlers read. -/
structure Request where
  Path : String
  UserAgent : String

/-- The fields of the struct `PRPL` the handlers read; `browserCapabilities`
stands for the method of that name (User-Agent classification). -/
structure PRPL where
  builds : builds
  version : String
  shouldPush : Option (Request → Bool)
  browserCapabilities : String → capability

/-- The function `strings.HasSuffix`. -/
def HasSuffix (s suffix : String) : Bool :=
  suffix.data.isSuffixOf s.data

/-- The function `http.Error` of the Go standard library: drops
`Content-Length` (recent releases), sets the content type and the no-sniff
header, writes the status code and the message. -/
def httpError (w : ResponseWriter) (message : String) (code : Nat) : ResponseWriter :=
  { w with
    header :=
      ((w.header.Del "Content-Length").Set "Content-Type" "text/plain; charset=utf-8").Set
        "X-Content-Type-Options" "nosniff"
    body := Body.written code (message ++ String.singleton (Char.ofNat 10)) }

/-- The method `build.addHeaders` (server.go, lines 81-112). -/
def build.addHeaders (b : build) (p : PRPL) (w : ResponseWriter) (r : Request) :
    ResponseWriter :=
  let filename := r.Path
  let found : Option (List linkHeader) :=
    match b.pushHeaders filename with
    | some links => some links
    | none => b.pushHeaders (p.version ++ filename)
  match found with
  | none => w
  | some links =>
    let doPush : Bool :=
      w.isPusher &&
        (match p.shouldPush with
          | some f => f r
          | none => false)
    let w1 : ResponseWriter :=
      if doPush then { w with pushed := w.pushed ++ links.map fun l => (l.file, CacheImmutable) }
      else w
    { w1 with header := links.foldl (fun h link => h.Add "Link" link.String) w1.header }

/-- The handler returned by `PRPL.staticHandler(next)` (server.go, lines
48-79).  `files` is the global map of that name, `next` the handler passed in
and `ServeContent` the function `http.ServeContent` with the arguments name,
modification time and content; both are given the response writer as the
handler leaves it and return it as they leave it. -/
def staticHandler (p : PRPL) (files : Files) (next : ResponseWriter → Request → ResponseWriter)
    (ServeContent : ResponseWriter → Request → String → Int → String → ResponseWriter)
    (w : ResponseWriter) (r : Request) : ResponseWriter :=
  let h : Header :=
    if HasSuffix r.Path "service-worker.js" then
      (w.header.Set "Service-Worker-Allowed" "/").Set "Cache-Control" CacheNeverPrivate
    else
      w.header.Set "Cache-Control" CacheImmutable
  let w1 : ResponseWriter := { w with header := h }
  let capabilities := p.browserCapabilities r.UserAgent
  match findBuild p.builds capabilities with
  | none => httpError w1 "This browser is not supported" 500
  | some b =>
    let w2 := b.addHeaders p w1 r
    match files r.Path with
    | none => next w2 r
    | some f => ServeContent w2 r r.Path f.modTime f.data

/-- The ordering law in the words of the design: `a` goes before `b` when its
requirement mask has the larger population count, or the counts are equal and
its declaration index is the lower one. -/
def ordersBefore (a b : build) : Prop :=
  b.requirements.size < a.requirements.size ∨
    (a.requirements.size = b.requirements.size ∧ a.configOrder < b.configOrder)

/-! ## Example inputs for the scenarios -/

/-- An example translation of capability tokens to bits, one bit per token. -/
def exampleCapabilities (tokens : List String) : capability :=
  tokens.foldl
    (fun mask t =>
      mask |||
        (if t == "es2015" then 1
         else if t == "push" then 2
         else if t == "serviceworker" then 4
         else if t == "modules" then 8
         else 0))
    0

/-- Scenario A: the builds `modern` (mask `0b11`) and `legacy` (mask 0). -/
def scenarioConfig : ProjectConfig :=
  { Entrypoint := "index.html"
    Shell := "shell.html"
    Builds :=
      [{ Name := "modern", BrowserCapabilities := ["es2015", "push"] },
       { Name := "legacy", BrowserCapabilities := [] }] }

/-- A configuration that declares no build. -/
def emptyConfig : ProjectConfig :=
  { Entrypoint := "", Shell := "shell.html", Builds := [] }

/-- A template factory that keeps its arguments. -/
def exampleTemplate : String → String → Int → Template := Template.mk

/-- The global `files` before anything is stored. -/
def noFiles : Files := fun _ => none

/-- The `FileInfo` of a directory. -/
def dirInfo : FileInfo := { IsDir := true, Size := 4096, ModTime := 1500000000 }

/-- The `FileInfo` of a regular file. -/
def fileInfo : FileInfo := { IsDir := false, Size := 22, ModTime := 1500000000 }

/-- A disk on which every directory exists and is empty, every manifest reads
as `manifest`, and paths are relative to the root `.`. -/
def emptyDirs (manifest : PushManifest) : Disk :=
  { ReadManifest := fun _ => manifest
    Walk := fun dir => [(dir, some dirInfo)]
    Rel := fun _ target => target
    Open := fun _ _ => none }

/-- A disk on which no directory exists: `lstat` fails for every path. -/
def noDirs (manifest : PushManifest) : Disk :=
  { ReadManifest := fun _ => manifest
    Walk := fun dir => [(dir, none)]
    Rel := fun _ target => target
    Open := fun _ _ => none }

/-- A disk on which every directory holds the one file `index.html`, whose
content is a base element for the build `modern`; paths are relative to the
root `.`. -/
def siteDisk : Disk :=
  { ReadManifest := fun _ => []
    Walk := fun dir => [(dir, some dirInfo), (pathJoin [dir, "index.html"], some fileInfo)]
    Rel := fun _ target => target
    Open := fun _ _ => some ("<base href=" ++ quote ++ "/modern/" ++ quote ++ ">") }

/-- A disk without push manifests, every directory present and empty. -/
def noManifest : Disk := emptyDirs []

/-- The build `modern` of scenario A as `loadBuilds` constructs it on the disk
`noManifest` for the root `.` without routes. -/
def scenarioModern : build :=
  { name := "modern", configOrder := 0, requirements := 3,
    entrypoint := "modern/index.html", template := none, pushHeaders := PushHeaders.empty }

/-- The build `legacy` of scenario A, likewise. -/
def scenarioLegacy : build :=
  { name := "legacy", configOrder := 1, requirements := 0,
    entrypoint := "legacy/index.html", template := none, pushHeaders := PushHeaders.empty }

/-- Scenario B: a disk whose manifests all read `a.js` depends on the script
`b.js`. -/
def scenarioManifest : Disk :=
  emptyDirs [("a.js", [("b.js", { type := "script" })])]

/-- A disk whose manifests all say that the shell `shell.html` depends on the
document `home-view.html`. -/
def shellImportsFragment : Disk :=
  emptyDirs [("shell.html", [("home-view.html", { type := "document" })])]

/-- A link to a script pushed with `app.js`. -/
def depLink : linkHeader := { file := "/static/dep.js", as := "script" }

/-- A link to a style sheet. -/
def styleLink : linkHeader := { file := "/static/app.css", as := "style" }

/-- A build whose push headers hold one list, under the bare key `app.js`. -/
def bareKeyBuild : build :=
  { scenarioLegacy with pushHeaders := PushHeaders.empty.set "app.js" [depLink] }

/-- A build whose push headers hold one list, under the version-prefixed key
`/static/app.js`. -/
def prefixedKeyBuild : build :=
  { scenarioLegacy with pushHeaders := PushHeaders.empty.set "/static/app.js" [depLink] }

/-- A build whose push headers hold a list under `/static/app.js` and another
list under the bare key `app.js`. -/
def bothKeysBuild : build :=
  { scenarioLegacy with
    pushHeaders :=
      (PushHeaders.empty.set "/static/app.js" [depLink]).set "app.js" [styleLink] }

/-- A server with the version prefix `/static/`, the registry of scenario A, no
push predicate, and a classifier that grants every client the mask `0b01`. -/
def exampleServer : PRPL :=
  { builds := [scenarioModern, scenarioLegacy]
    version := "/static/"
    shouldPush := none
    browserCapabilities := fun _ => 1 }

/-- A fresh response writer without push support. -/
def freshResponse : ResponseWriter :=
  { header := fun _ => [], isPusher := false, pushed := [], body := Body.unwritten }

/-- The reply of `http.FileServer` (Go standard library, since release 1.23)
for a file that does not exist: `serveError` drops the headers
`Cache-Control`, `Content-Encoding`, `Etag` and `Last-Modified`, then
`http.Error` writes status 404. -/
def fileServerNotFound (w : ResponseWriter) (_r : Request) : ResponseWriter :=
  httpError
    { w with
      header :=
        (((w.header.Del "Cache-Control").Del "Content-Encoding").Del "Etag").Del
          "Last-Modified" }
    "404 page not found" 404

/-- A stand-in for `http.ServeContent` that writes the content with status 200
and leaves the header map as it is. -/
def plainServeContent (w : ResponseWriter) (_r : Request) (_name : String) (_modTime : Int)
    (data : String) : ResponseWriter :=
  { w with body := Body.written 200 data }

/-- A stand-in for a next handler that finds the file: it writes a body with
status 200 and leaves the header map as it is. -/
def plainNext (w : ResponseWriter) (_r : Request) : ResponseWriter :=
  { w with body := Body.written 200 "console.log(1)" }

/-- The elements of a path, each with a slash in front. -/
def slashed : List (List Char) → List Char
  | [] => []
  | e :: rest => '/' :: e ++ slashed rest

/-- A path element that `path.Clean` copies as it is: not empty, without a
slash, and neither `.` nor `..`. -/
def plainElem (s : String) : Prop :=
  s.data ≠ [] ∧ '/' ∉ s.data ∧ s.data ≠ ['.'] ∧ s.data ≠ ['.', '.']

/-- A relative path made of plain elements separated by single slashes. -/
def plainPath (p : String) : Prop :=
  ∃ elems : List String, elems ≠ [] ∧ (∀ s ∈ elems, plainElem s) ∧ p = "/".intercalate elems

/-! # Properties -/

/-! ## Selection: `canServe` and `findBuild` -/

theorem canServe_eq (b : build) (c : capability) :
    b.canServe c = true ↔ c &&& b.requirements = b.requirements := by
  simp [build.canServe]

theorem and_eq_right_iff_bits (c r : Nat) :
    c &&& r = r ↔ ∀ i, r.testBit i = true → c.testBit i = true := by
  constructor
  · intro h i hi
    have := congrArg (fun n => Nat.testBit n i) h
    simp only [Nat.testBit_and, hi, Bool.and_true] at this
    exact this
  · intro h
    apply Nat.eq_of_testBit_eq
    intro i
    rw [Nat.testBit_and]
    cases hr : r.testBit i with
    | false => simp
    | true => simp [h i hr]

/-- C4: `canServe` is true exactly when `client & requirements == requirements`,
that is when every bit set in the requirement mask is set in the client mask;
a build whose requirement mask is 0 can serve every client mask. -/
theorem canServe_containment :
    (∀ (b : build) (c : capability),
        b.canServe c = true ↔ c &&& b.requirements = b.requirements) ∧
    (∀ (b : build) (c : capability),
        b.canServe c = true ↔ ∀ i, b.requirements.testBit i = true → c.testBit i = true) ∧
    (∀ (b : build) (c : capability),
        build.canServe { b with requirements := 0 } c = true) := by
  refine ⟨canServe_eq, ?_, ?_⟩
  · intro b c
    rw [canServe_eq, and_eq_right_iff_bits]
  · intro b c
    simp [build.canServe]

theorem findBuild_eq_none (bs : builds) (c : capability) :
    findBuild bs c = none ↔ ∀ b ∈ bs, b.canServe c = false := by
  induction bs with
  | nil => simp [findBuild]
  | cons a l ih =>
    cases h : a.canServe c <;> simp [findBuild, h, ih]

theorem findBuild_eq_some (bs : builds) (c : capability) (b : build) :
    findBuild bs c = some b ↔
      ∃ pre post, bs = pre ++ b :: post ∧ b.canServe c = true ∧
        ∀ x ∈ pre, x.canServe c = false := by
  induction bs with
  | nil => simp [findBuild]
  | cons a l ih =>
    cases h : a.canServe c with
    | true =>
      simp only [findBuild, h, if_true, Option.some.injEq]
      constructor
      · rintro rfl
        exact ⟨[], l, rfl, h, by simp⟩
      · rintro ⟨pre, post, hl, hb, hpre⟩
        cases pre with
        | nil =>
          simp only [List.nil_append, List.cons.injEq] at hl
          exact hl.1
        | cons x pre =>
          simp only [List.cons_append, List.cons.injEq] at hl
          have := hpre x (by simp)
          rw [← hl.1, h] at this
          cases this
    | false =>
      simp only [findBuild, h, Bool.false_eq_true, if_false, ih]
      constructor
      · rintro ⟨pre, post, hl, hb, hpre⟩
        refine ⟨a :: pre, post, by simp [hl], hb, ?_⟩
        intro x hx
        rcases List.mem_cons.1 hx with rfl | hx
        · exact h
        · exact hpre x hx
      · rintro ⟨pre, post, hl, hb, hpre⟩
        cases pre with
        | nil =>
          simp only [List.nil_append, List.cons.injEq] at hl
          rw [hl.1, hb] at h
          cases h
        | cons x pre =>
          simp only [List.cons_append, List.cons.injEq] at hl
          exact ⟨pre, post, hl.2, hb, fun y hy => hpre y (by simp [hy])⟩

/-- C3: for any registry and client mask, `findBuild` returns `b` exactly when
`b` is the first build in registry order that can serve the client (every
build before it cannot); it returns none exactly when no build can serve the
client; and it does not return none when some build has requirement mask 0. -/
theorem findBuild_first (bs : builds) (c : capability) :
    (∀ b, findBuild bs c = some b ↔
        ∃ pre post, bs = pre ++ b :: post ∧ b.canServe c = true ∧
          ∀ x ∈ pre, x.canServe c = false) ∧
    (findBuild bs c = none ↔ ∀ b ∈ bs, b.canServe c = false) ∧
    ((∃ b ∈ bs, b.requirements = 0) → findBuild bs c ≠ none) := by
  refine ⟨findBuild_eq_some bs c, findBuild_eq_none bs c, ?_⟩
  rintro ⟨b, hb, h0⟩ hnone
  have := (findBuild_eq_none bs c).1 hnone b hb
  simp [build.canServe, h0] at this

/-- A registry with a fallback build and a client mask, for `findBuild_first`. -/
theorem findBuild_first_witness :
    findBuild
      [{ name := "modern", configOrder := 0, requirements := 3, entrypoint := "modern/index.html",
         template := none, pushHeaders := PushHeaders.empty },
       { name := "legacy", configOrder := 1, requirements := 0, entrypoint := "legacy/index.html",
         template := none, pushHeaders := PushHeaders.empty }] 1 ≠ none :=
  (findBuild_first _ 1).2.2 ⟨_, List.mem_cons_of_mem _ (List.mem_singleton.2 rfl), rfl⟩

/-! ## Sorting -/

theorem Less_iff (a b : build) : byPriority.Less a b = true ↔ ordersBefore a b := by
  unfold byPriority.Less ordersBefore
  simp only [beq_iff_eq]
  split_ifs with h
  · simp only [decide_eq_true_eq]
    omega
  · simp only [decide_eq_true_eq]
    omega

theorem ordersBefore_asymm {a b : build} (h : ordersBefore a b) : ¬ ordersBefore b a := by
  unfold ordersBefore at *
  omega

theorem ordersBefore_trans {a b c : build} (h₁ : ordersBefore a b) (h₂ : ordersBefore b c) :
    ordersBefore a c := by
  unfold ordersBefore at *
  omega

theorem ordersBefore_of_not {a b : build} (h : ¬ ordersBefore b a)
    (hne : a.configOrder ≠ b.configOrder) : ordersBefore a b := by
  unfold ordersBefore at *
  omega

theorem sortInsert_perm {α : Type} (less : α → α → Bool) (a : α) (l : List α) :
    (sortInsert less a l).Perm (a :: l) := by
  induction l with
  | nil => exact List.Perm.refl _
  | cons b l ih =>
    unfold sortInsert
    split_ifs
    · exact List.Perm.refl _
    · exact ((List.Perm.cons b ih).trans (List.Perm.swap a b l))

theorem sortSort_perm {α : Type} (less : α → α → Bool) (l : List α) :
    (sortSort less l).Perm l := by
  induction l with
  | nil => exact List.Perm.refl _
  | cons a l ih =>
    exact (sortInsert_perm less a _).trans (List.Perm.cons a ih)

theorem sortInsert_sorted {α : Type} (less : α → α → Bool)
    (hasymm : ∀ a b, less a b = true → less b a = false)
    (htrans : ∀ a b c, less a b = true → less b c = true → less a c = true)
    (a : α) (l : List α) (hl : l.Pairwise (fun x y => less y x = false)) :
    (sortInsert less a l).Pairwise (fun x y => less y x = false) := by
  induction l with
  | nil => simp [sortInsert]
  | cons b l ih =>
    rw [List.pairwise_cons] at hl
    unfold sortInsert
    split_ifs with hab
    · refine List.Pairwise.cons ?_ (List.Pairwise.cons hl.1 hl.2)
      intro y hy
      rcases List.mem_cons.1 hy with rfl | hy
      · exact hasymm _ _ hab
      · cases hya : less y a with
        | false => rfl
        | true =>
          have := htrans y a b hya hab
          rw [hl.1 y hy] at this
          cases this
    · refine List.Pairwise.cons ?_ (ih hl.2)
      intro y hy
      rcases List.mem_cons.1 ((sortInsert_perm less a l).subset hy) with rfl | hy
      · simpa using hab
      · exact hl.1 y hy

theorem sortSort_sorted {α : Type} (less : α → α → Bool)
    (hasymm : ∀ a b, less a b = true → less b a = false)
    (htrans : ∀ a b c, less a b = true → less b c = true → less a c = true)
    (l : List α) : (sortSort less l).Pairwise (fun x y => less y x = false) := by
  induction l with
  | nil => exact List.Pairwise.nil
  | cons a l ih => exact sortInsert_sorted less hasymm htrans a _ ih

theorem Less_asymm (a b : build) (h : byPriority.Less a b = true) :
    byPriority.Less b a = false := by
  cases hba : byPriority.Less b a with
  | false => rfl
  | true => exact absurd ((Less_iff b a).1 hba) (ordersBefore_asymm ((Less_iff a b).1 h))

theorem Less_trans (a b c : build) (h₁ : byPriority.Less a b = true)
    (h₂ : byPriority.Less b c = true) : byPriority.Less a c = true :=
  (Less_iff a c).2 (ordersBefore_trans ((Less_iff a b).1 h₁) ((Less_iff b c).1 h₂))

/-- A list in which no later build is `Less` than an earlier one, and whose
declaration indices are distinct, is strictly ordered by the ordering law. -/
theorem ordersBefore_of_sorted (l : builds)
    (hs : l.Pairwise (fun x y => byPriority.Less y x = false))
    (hd : l.Pairwise (fun x y => x.configOrder ≠ y.configOrder)) :
    l.Pairwise ordersBefore := by
  refine (hs.and hd).imp ?_
  rintro a b ⟨h, hne⟩
  refine ordersBefore_of_not ?_ hne
  intro hba
  rw [(Less_iff b a).2 hba] at h
  cases h

theorem distinct_of_perm {l₁ l₂ : builds} (hp : l₁.Perm l₂)
    (hd : l₂.Pairwise (fun x y => x.configOrder ≠ y.configOrder)) :
    l₁.Pairwise (fun x y => x.configOrder ≠ y.configOrder) :=
  (hp.pairwise_iff (fun h => Ne.symm h)).2 hd

theorem sortSort_ordersBefore (l : builds)
    (hd : l.Pairwise (fun x y => x.configOrder ≠ y.configOrder)) :
    (sortSort byPriority.Less l).Pairwise ordersBefore :=
  ordersBefore_of_sorted _ (sortSort_sorted _ Less_asymm Less_trans l)
    (distinct_of_perm (sortSort_perm _ l) hd)

/-- The promise of `sort.Sort` determines the result: any permutation of `l`
in which no later build is `Less` than an earlier one is the list that
`sortSort` returns, when the declaration indices in `l` are distinct. -/
theorem sortSort_unique (l out : builds)
    (hd : l.Pairwise (fun x y => x.configOrder ≠ y.configOrder))
    (hp : out.Perm l) (hs : out.Pairwise (fun x y => byPriority.Less y x = false)) :
    out = sortSort byPriority.Less l := by
  haveI : IsAntisymm build ordersBefore := ⟨fun a b h₁ h₂ => absurd h₂ (ordersBefore_asymm h₁)⟩
  exact List.eq_of_perm_of_sorted (hp.trans (sortSort_perm _ l).symm)
    (ordersBefore_of_sorted out hs (distinct_of_perm hp hd)) (sortSort_ordersBefore l hd)

/-! ## Adequacy of the fuel -/

theorem popCount_eq_digits (fuel n : Nat) (h : n < 2 ^ fuel) :
    popCount fuel n = (Nat.digits 2 n).sum := by
  induction fuel generalizing n with
  | zero =>
    have : n = 0 := by simpa using h
    subst this
    simp [popCount]
  | succ fuel ih =>
    rcases Nat.eq_zero_or_pos n with rfl | hpos
    · simp [popCount, ih 0 (Nat.two_pow_pos fuel)]
    · have hlt : n / 2 < 2 ^ fuel := by
        rw [Nat.div_lt_iff_lt_mul (by norm_num)]
        rw [pow_succ] at h
        exact h
      rw [popCount, ih _ hlt, Nat.digits_def' (by norm_num) hpos, List.sum_cons]

/-- The fuel of `capability.size` suffices: the result is the number of ones
among the binary digits of the mask. -/
theorem size_eq_digits (c : capability) : c.size = (Nat.digits 2 c).sum :=
  popCount_eq_digits c c (Nat.lt_two_pow c)

theorem cleanLoop_nil (rooted : Bool) (fuel : Nat) (out : List Char) (dotdot : Nat) :
    cleanLoop rooted fuel [] out dotdot = out := by
  cases fuel <;> rfl

/-- The loop of `path.Clean` does not depend on the fuel once the fuel is at
least the number of unread bytes. -/
theorem cleanLoop_fuel (rooted : Bool) (n : Nat) :
    ∀ (path : List Char) (f₁ f₂ : Nat) (out : List Char) (dotdot : Nat),
      path.length ≤ n → path.length ≤ f₁ → path.length ≤ f₂ →
      cleanLoop rooted f₁ path out dotdot = cleanLoop rooted f₂ path out dotdot := by
  induction n with
  | zero =>
    intro path f₁ f₂ out dotdot hn _ _
    have : path = [] := List.length_eq_zero.1 (Nat.le_zero.1 hn)
    subst this
    rw [cleanLoop_nil, cleanLoop_nil]
  | succ n ih =>
    intro path f₁ f₂ out dotdot hn h₁ h₂
    cases path with
    | nil => rw [cleanLoop_nil, cleanLoop_nil]
    | cons c rest =>
      simp only [List.length_cons] at hn h₁ h₂
      obtain ⟨g₁, rfl⟩ : ∃ g, f₁ = g + 1 := ⟨f₁ - 1, by omega⟩
      obtain ⟨g₂, rfl⟩ : ∃ g, f₂ = g + 1 := ⟨f₂ - 1, by omega⟩
      have htail : rest.tail.length ≤ rest.length := by simp
      have hdrop : (c == '/') = false →
          ((c :: rest).dropWhile (· != '/')).length ≤ rest.length := by
        intro hc
        have hne : (c != '/') = true := by simp [bne, hc]
        rw [List.dropWhile_cons, if_pos hne]
        exact (List.dropWhile_suffix _).length_le
      simp only [cleanLoop]
      split_ifs with hc
      all_goals
        first
          | exact ih rest g₁ g₂ _ _ (by omega) (by omega) (by omega)
          | exact ih rest.tail g₁ g₂ _ _ (by omega) (by omega) (by omega)
          | (have hd := hdrop (by simpa using hc)
             exact ih _ g₁ g₂ _ _ (by omega) (by omega) (by omega))

theorem String_script_ne_document (f g : String) :
    linkHeader.String { file := f, as := "script" } ≠
      linkHeader.String { file := g, as := "document" } := by
  intro h
  have h2 := congrArg (fun s : String => (s.data.reverse).take 2) h
  simp only [linkHeader.String, String.data_append, List.reverse_append] at h2
  have e1 : "script".data.reverse = ['t', 'p', 'i', 'r', 'c', 's'] := by decide
  have e2 : "document".data.reverse = ['t', 'n', 'e', 'm', 'u', 'c', 'o', 'd'] := by decide
  rw [e1, e2] at h2
  simp at h2

/-- One deduplicating loop keeps the canonical strings of the list distinct,
as long as every string in the list is in the set or is the one string `fs`
that the loop does not produce. -/
theorem addLinks_inv (pfx fs : String) (assets : List (String × Asset)) :
    ∀ st : List String × List linkHeader,
      (st.2.map linkHeader.String).Nodup →
      (∀ l ∈ st.2, l.String ∈ st.1 ∨ l.String = fs) →
      (∀ pa ∈ assets, (assetLink pfx pa).String ≠ fs) →
      ((addLinks pfx assets st).2.map linkHeader.String).Nodup ∧
      (∀ l ∈ (addLinks pfx assets st).2, l.String ∈ (addLinks pfx assets st).1 ∨ l.String = fs) ∧
      (∀ l ∈ (addLinks pfx assets st).2, l ∈ st.2 ∨ ∃ pa ∈ assets, l = assetLink pfx pa) := by
  induction assets with
  | nil =>
    intro st hnd hset _
    exact ⟨hnd, hset, fun l hl => Or.inl hl⟩
  | cons pa rest ih =>
    intro st hnd hset hfs
    have hrest : ∀ qa ∈ rest, (assetLink pfx qa).String ≠ fs :=
      fun qa hqa => hfs qa (List.mem_cons_of_mem _ hqa)
    have hstep : addLinks pfx (pa :: rest) st =
        addLinks pfx rest
          (if (assetLink pfx pa).String ∈ st.1 then st
           else ((assetLink pfx pa).String :: st.1, st.2 ++ [assetLink pfx pa])) := rfl
    rw [hstep]
    by_cases hin : (assetLink pfx pa).String ∈ st.1
    · rw [if_pos hin]
      obtain ⟨h₁, h₂, h₃⟩ := ih st hnd hset hrest
      refine ⟨h₁, h₂, fun l hl => ?_⟩
      rcases h₃ l hl with h | ⟨qa, hqa, rfl⟩
      · exact Or.inl h
      · exact Or.inr ⟨qa, List.mem_cons_of_mem _ hqa, rfl⟩
    · rw [if_neg hin]
      have hnew : (assetLink pfx pa).String ∉ st.2.map linkHeader.String := by
        intro hmem
        obtain ⟨l, hl, hls⟩ := List.mem_map.1 hmem
        rcases hset l hl with h | h
        · rw [hls] at h
          exact hin h
        · rw [hls] at h
          exact hfs pa (List.mem_cons_self _ _) h
      obtain ⟨h₁, h₂, h₃⟩ :=
        ih ((assetLink pfx pa).String :: st.1, st.2 ++ [assetLink pfx pa])
          (by
            rw [List.map_append, List.map_singleton]
            exact List.Nodup.append hnd (List.nodup_singleton _)
              (by
                intro x hx hx'
                rw [List.mem_singleton] at hx'
                exact hnew (hx' ▸ hx)))
          (by
            intro l hl
            rcases List.mem_append.1 hl with h | h
            · rcases hset l h with h' | h'
              · exact Or.inl (List.mem_cons_of_mem _ h')
              · exact Or.inr h'
            · rw [List.mem_singleton] at h
              rw [h]
              exact Or.inl (List.mem_cons_self _ _))
          hrest
      refine ⟨h₁, h₂, fun l hl => ?_⟩
      rcases h₃ l hl with h | ⟨qa, hqa, rfl⟩
      · rcases List.mem_append.1 h with h | h
        · exact Or.inl h
        · rw [List.mem_singleton] at h
          exact Or.inr ⟨pa, List.mem_cons_self _ _, h⟩
      · exact Or.inr ⟨qa, List.mem_cons_of_mem _ hqa, rfl⟩

/-- What the deduplication of `newBuild` does achieve: when the canonical
string of the fragment's own document link differs from those of the shell's
document link and of every dependency of the shell and of the fragment, no
canonical string occurs twice in the list of the route. -/
theorem routeHeaders_nodup (pfx shell fragment : String) (m : PushManifest)
    (hshell :
      linkHeader.String { file := pathJoin [pfx, shell], as := "document" } ≠
        linkHeader.String { file := pathJoin [pfx, fragment], as := "document" })
    (hdeps : ∀ pa ∈ m.get shell ++ m.get fragment,
      (assetLink pfx pa).String ≠
        linkHeader.String { file := pathJoin [pfx, fragment], as := "document" }) :
    ((routeHeaders pfx shell fragment m).map linkHeader.String).Nodup := by
  have hsh :=
    addLinks_inv pfx (linkHeader.String { file := pathJoin [pfx, fragment], as := "document" })
      (m.get shell)
      ([linkHeader.String { file := pathJoin [pfx, shell], as := "document" },
        linkHeader.String
          { file := pathJoin [pfx, "bower_components/webcomponentsjs/webcomponents-loader.js"],
            as := "script" }],
       [{ file := pathJoin [pfx, "bower_components/webcomponentsjs/webcomponents-loader.js"],
          as := "script" },
        { file := pathJoin [pfx, shell], as := "document" }])
      (by
        simp only [List.map_cons, List.map_nil, List.nodup_cons, List.mem_singleton,
          List.not_mem_nil, not_false_eq_true, List.nodup_nil, and_true]
        exact String_script_ne_document _ _)
      (by
        intro l hl
        simp only [List.mem_cons, List.mem_singleton, List.not_mem_nil, or_false] at hl
        rcases hl with rfl | rfl
        · exact Or.inl (by simp)
        · exact Or.inl (by simp))
      (fun pa hpa => hdeps pa (List.mem_append_left _ hpa))
  unfold routeHeaders
  simp only []
  generalize addLinks pfx (m.get shell) _ = st at hsh ⊢
  obtain ⟨h₁, h₂, h₃⟩ := hsh
  refine (addLinks_inv pfx
    (linkHeader.String { file := pathJoin [pfx, fragment], as := "document" })
    (m.get fragment) (st.1, st.2 ++ [{ file := pathJoin [pfx, fragment], as := "document" }])
    ?_ ?_ (fun pa hpa => hdeps pa (List.mem_append_right _ hpa))).1
  · rw [List.map_append, List.map_singleton]
    refine List.Nodup.append h₁ (List.nodup_singleton _) ?_
    intro x hx hx'
    rw [List.mem_singleton] at hx'
    subst hx'
    obtain ⟨l, hl, hls⟩ := List.mem_map.1 hx
    rcases h₃ l hl with h | ⟨pa, hpa, rfl⟩
    · simp only [List.mem_cons, List.mem_singleton, List.not_mem_nil, or_false] at h
      rcases h with rfl | rfl
      · exact String_script_ne_document _ _ hls
      · exact hshell hls
    · exact hdeps pa (List.mem_append_left _ hpa) hls
  · intro l hl
    rcases List.mem_append.1 hl with h | h
    · exact h₂ l h
    · rw [List.mem_singleton] at h
      rw [h]
      exact Or.inr rfl

/-! ## `path.Join` on plain elements -/

theorem cleanLoop_slash (rooted : Bool) (fuel : Nat) (rest out : List Char) (dotdot : Nat) :
    cleanLoop rooted (fuel + 1) ('/' :: rest) out dotdot = cleanLoop rooted fuel rest out dotdot := by
  simp [cleanLoop]

theorem takeWhile_elem (s tail : List Char) (hs : '/' ∉ s)
    (htail : tail = [] ∨ tail.head? = some '/') :
    (s ++ tail).takeWhile (· != '/') = s ∧ (s ++ tail).dropWhile (· != '/') = tail := by
  induction s with
  | nil =>
    rcases htail with rfl | h
    · simp
    · cases tail with
      | nil => simp
      | cons c t =>
        simp only [List.head?_cons, Option.some.injEq] at h
        subst h
        simp
  | cons c s ih =>
    have hc : c ≠ '/' := fun h => hs (by simp [h])
    have hs' : '/' ∉ s := fun h => hs (List.mem_cons_of_mem _ h)
    obtain ⟨h₁, h₂⟩ := ih hs'
    simp [List.takeWhile_cons, List.dropWhile_cons, hc, h₁, h₂]

/-- One round of the loop of `path.Clean` on a plain element: the element is
copied, with a slash in front unless the buffer holds only the root slash. -/
theorem cleanLoop_elem (fuel : Nat) (s tail out : List Char) (dotdot : Nat)
    (hne : s ≠ []) (hslash : '/' ∉ s) (hdot : s ≠ ['.']) (hdotdot : s ≠ ['.', '.'])
    (htail : tail = [] ∨ tail.head? = some '/') :
    cleanLoop true (fuel + 1) (s ++ tail) out dotdot =
      cleanLoop true fuel tail ((if out.length != 1 then out ++ ['/'] else out) ++ s) dotdot := by
  obtain ⟨htake, hdrop⟩ := takeWhile_elem s tail hslash htail
  cases s with
  | nil => exact absurd rfl hne
  | cons c s' =>
    have hc : c ≠ '/' := fun h => hslash (by simp [h])
    have h2 : (c == '.' && ((s' ++ tail).isEmpty || (s' ++ tail).head? == some '/')) = false := by
      cases s' with
      | nil =>
        have : c ≠ '.' := fun h => hdot (by rw [h])
        simp [this]
      | cons c2 s'' =>
        have hc2 : c2 ≠ '/' := fun h => hslash (by simp [h])
        simp [hc2]
    have h3 : (c == '.' && (s' ++ tail).head? == some '.' &&
        ((s' ++ tail).tail.isEmpty || (s' ++ tail).tail.head? == some '/')) = false := by
      cases s' with
      | nil =>
        have : c ≠ '.' := fun h => hdot (by rw [h])
        simp [this]
      | cons c2 s'' =>
        cases s'' with
        | nil =>
          have : ¬ (c = '.' ∧ c2 = '.') := fun h => hdotdot (by rw [h.1, h.2])
          by_cases h1 : c = '.'
          · have : c2 ≠ '.' := fun h => this ⟨h1, h⟩
            simp [this]
          · simp [h1]
        | cons c3 s3 =>
          have hc3 : c3 ≠ '/' := fun h => hslash (by simp [h])
          simp [hc3]
    rw [List.cons_append] at htake hdrop ⊢
    simp only [cleanLoop, beq_iff_eq, hc, if_false, h2, h3, Bool.false_eq_true, htake, hdrop,
      Bool.true_and, Bool.not_true, Bool.false_and, Bool.or_false]

theorem slashed_append (a b : List (List Char)) : slashed (a ++ b) = slashed a ++ slashed b := by
  induction a with
  | nil => rfl
  | cons e rest ih => simp [slashed, ih]

theorem slashed_head (elems : List (List Char)) (tail : List Char)
    (htail : tail = [] ∨ tail.head? = some '/') :
    slashed elems ++ tail = [] ∨ (slashed elems ++ tail).head? = some '/' := by
  cases elems with
  | nil => simpa [slashed] using htail
  | cons e rest => exact Or.inr (by simp [slashed])

/-- The loop of `path.Clean` on plain elements, each with a slash in front,
when the buffer already holds an element: the elements are appended as they
are. -/
theorem cleanLoop_elems (elems : List (List Char))
    (h : ∀ s ∈ elems, s ≠ [] ∧ '/' ∉ s ∧ s ≠ ['.'] ∧ s ≠ ['.', '.']) :
    ∀ (out tail : List Char) (dotdot fuel : Nat), 2 ≤ out.length →
      (tail = [] ∨ tail.head? = some '/') → (slashed elems ++ tail).length ≤ fuel →
      cleanLoop true fuel (slashed elems ++ tail) out dotdot =
        cleanLoop true tail.length tail (out ++ slashed elems) dotdot := by
  induction elems with
  | nil =>
    intro out tail dotdot fuel _ _ hfuel
    simp only [slashed, List.nil_append, List.append_nil] at hfuel ⊢
    exact cleanLoop_fuel true tail.length tail fuel tail.length out dotdot (le_refl _) hfuel
      (le_refl _)
  | cons e es ih =>
    intro out tail dotdot fuel hout htail hfuel
    obtain ⟨hne, hslash, hdot, hdotdot⟩ := h e (List.mem_cons_self _ _)
    have hlen : 1 ≤ e.length := List.length_pos.2 hne
    simp only [slashed, List.cons_append, List.append_assoc, List.length_cons,
      List.length_append] at hfuel ⊢
    obtain ⟨g, rfl⟩ : ∃ g, fuel = g + 1 + 1 := ⟨fuel - 2, by omega⟩
    rw [cleanLoop_slash, cleanLoop_elem g e (slashed es ++ tail) out dotdot hne hslash hdot
      hdotdot (slashed_head es tail htail)]
    have hsep : (out.length != 1) = true := by simp; omega
    rw [if_pos hsep]
    rw [ih (fun s hs => h s (List.mem_cons_of_mem _ hs)) _ tail dotdot g
      (by simp only [List.length_append]; omega) htail
      (by simp only [List.length_append]; omega)]
    simp [List.append_assoc]

/-- The loop of `path.Clean` on plain elements, each with a slash in front,
when the buffer holds only the root slash. -/
theorem cleanLoop_elems_root (e : List Char) (es : List (List Char))
    (h : ∀ s ∈ e :: es, s ≠ [] ∧ '/' ∉ s ∧ s ≠ ['.'] ∧ s ≠ ['.', '.'])
    (tail : List Char) (dotdot fuel : Nat) (htail : tail = [] ∨ tail.head? = some '/')
    (hfuel : (slashed (e :: es) ++ tail).length ≤ fuel) :
    cleanLoop true fuel (slashed (e :: es) ++ tail) ['/'] dotdot =
      cleanLoop true tail.length tail (slashed (e :: es)) dotdot := by
  obtain ⟨hne, hslash, hdot, hdotdot⟩ := h e (List.mem_cons_self _ _)
  have hlen : 1 ≤ e.length := List.length_pos.2 hne
  simp only [slashed, List.cons_append, List.append_assoc, List.length_cons,
    List.length_append] at hfuel ⊢
  obtain ⟨g, rfl⟩ : ∃ g, fuel = g + 1 + 1 := ⟨fuel - 2, by omega⟩
  rw [cleanLoop_slash, cleanLoop_elem g e (slashed es ++ tail) ['/'] dotdot hne hslash hdot
    hdotdot (slashed_head es tail htail)]
  have hsep : (['/'].length != 1) = false := by simp
  rw [hsep]
  simp only [Bool.false_eq_true, if_false]
  rw [cleanLoop_elems es (fun s hs => h s (List.mem_cons_of_mem _ hs)) _ tail dotdot g
    (by simp only [List.length_append, List.length_singleton]; omega) htail
    (by simp only [List.length_append]; omega)]
  simp

/-- On a path of plain elements under the root, followed by a doubled slash
and further plain elements, `path.Clean` only removes the doubled slash. -/
theorem cleanLoop_plain (segs rel : List (List Char))
    (hsegs : ∀ s ∈ segs, s ≠ [] ∧ '/' ∉ s ∧ s ≠ ['.'] ∧ s ≠ ['.', '.'])
    (hrel : ∀ s ∈ rel, s ≠ [] ∧ '/' ∉ s ∧ s ≠ ['.'] ∧ s ≠ ['.', '.'])
    (hne : rel ≠ []) (fuel : Nat) (hfuel : (slashed segs ++ '/' :: slashed rel).length ≤ fuel) :
    cleanLoop true fuel (slashed segs ++ '/' :: slashed rel) ['/'] 1 = slashed (segs ++ rel) := by
  obtain ⟨r, rs, rfl⟩ : ∃ r rs, rel = r :: rs := by
    cases rel with
    | nil => exact absurd rfl hne
    | cons r rs => exact ⟨r, rs, rfl⟩
  cases segs with
  | nil =>
    simp only [slashed, List.nil_append, List.length_cons] at hfuel ⊢
    obtain ⟨g, rfl⟩ : ∃ g, fuel = g + 1 := ⟨fuel - 1, by omega⟩
    rw [cleanLoop_slash]
    have := cleanLoop_elems_root r rs hrel [] 1 g (Or.inl rfl)
      (by simp only [slashed, List.append_nil, List.length_cons]; omega)
    simp only [slashed, List.append_nil] at this
    rw [this]
    rfl
  | cons e es =>
    rw [cleanLoop_elems_root e es hsegs ('/' :: slashed (r :: rs)) 1 fuel (Or.inr rfl) hfuel]
    simp only [List.length_cons]
    rw [cleanLoop_slash]
    have hlen : 2 ≤ (slashed (e :: es)).length := by
      have := List.length_pos.2 (hsegs e (List.mem_cons_self _ _)).1
      simp only [slashed, List.length_cons, List.length_append]
      omega
    have := cleanLoop_elems (r :: rs) hrel (slashed (e :: es)) [] 1 (slashed (r :: rs)).length
      hlen (Or.inl rfl) (by simp)
    simp only [List.append_nil] at this
    rw [this, slashed_append]
    rfl

theorem intercalate_go_data (acc : String) (rest : List String) :
    (String.intercalate.go acc "/" rest).data =
      acc.data ++ slashed (rest.map String.data) := by
  induction rest generalizing acc with
  | nil => simp [String.intercalate.go, slashed]
  | cons a as ih =>
    rw [String.intercalate.go, ih]
    simp [String.data_append, slashed]

/-- The prefix of a named build under a version `/v/` joined with a path of
plain elements: `path.Join` is then plain concatenation, so the result lies
under the prefix. -/
theorem pathJoin_plain (v name : String) (rel : List String) (hv : plainElem v)
    (hn : plainElem name) (hrel : ∀ s ∈ rel, plainElem s) (hne : rel ≠ []) :
    pathJoin ["/" ++ v ++ "/" ++ name ++ "/", "/".intercalate rel] =
      "/" ++ v ++ "/" ++ name ++ "/" ++ "/".intercalate rel := by
  obtain ⟨r, rs, rfl⟩ : ∃ r rs, rel = r :: rs := by
    cases rel with
    | nil => exact absurd rfl hne
    | cons r rs => exact ⟨r, rs, rfl⟩
  have hx : ("/".intercalate (r :: rs)).data = r.data ++ slashed (rs.map String.data) := by
    rw [String.intercalate, intercalate_go_data]
  have hpfx : ("/" ++ v ++ "/" ++ name ++ "/").data = slashed [v.data, name.data] ++ ['/'] := by
    simp [String.data_append, slashed]
  have hpne : (("/" ++ v ++ "/" ++ name ++ "/") == "") = false := by
    rw [beq_eq_false_iff_ne]
    intro h
    have := congrArg String.data h
    rw [hpfx] at this
    simp [slashed] at this
  have hjoin : "/".intercalate ["/" ++ v ++ "/" ++ name ++ "/", "/".intercalate (r :: rs)] =
      String.mk (slashed [v.data, name.data] ++ '/' :: slashed ((r :: rs).map String.data)) := by
    apply String.ext
    rw [String.intercalate, intercalate_go_data, hpfx]
    simp only [List.map_cons, List.map_nil, slashed, hx, List.append_nil, List.cons_append,
      List.append_assoc, List.nil_append, List.singleton_append]
  have hplain : ∀ s ∈ [v.data, name.data] ++ (r :: rs).map String.data,
      s ≠ [] ∧ '/' ∉ s ∧ s ≠ ['.'] ∧ s ≠ ['.', '.'] := by
    intro s hs
    rcases List.mem_append.1 hs with h | h
    · simp only [List.mem_cons, List.mem_singleton, List.not_mem_nil, or_false] at h
      rcases h with rfl | rfl
      · exact hv
      · exact hn
    · obtain ⟨t, ht, rfl⟩ := List.mem_map.1 h
      exact hrel t ht
  have hclean := cleanLoop_plain [v.data, name.data] ((r :: rs).map String.data)
    (fun s hs => hplain s (List.mem_append_left _ hs))
    (fun s hs => hplain s (List.mem_append_right _ hs)) (by simp)
  unfold pathJoin
  simp only [List.dropWhile_cons, hpne, Bool.false_eq_true, if_false]
  rw [hjoin]
  apply String.ext
  rw [String.data_append, hpfx, hx]
  have hdata : (slashed [v.data, name.data] ++ '/' :: slashed ((r :: rs).map String.data)) =
      '/' :: (v.data ++ slashed [name.data] ++ '/' :: slashed ((r :: rs).map String.data)) := by
    simp [slashed]
  unfold pathClean
  simp only [hdata]
  have hfuel := hclean
    ((v.data ++ slashed [name.data] ++ '/' :: slashed ((r :: rs).map String.data)).length + 1 + 1)
    (by rw [hdata]; simp only [List.length_cons]; omega)
  rw [hdata, cleanLoop_slash] at hfuel
  simp only [beq_self_eq_true, if_true, hfuel, slashed_append]
  simp [slashed]

theorem pathJoin_plainPath (v name p : String) (hv : plainElem v) (hn : plainElem name)
    (hp : plainPath p) :
    pathJoin ["/" ++ v ++ "/" ++ name ++ "/", p] = "/" ++ v ++ "/" ++ name ++ "/" ++ p := by
  obtain ⟨elems, hne, hall, rfl⟩ := hp
  exact pathJoin_plain v name elems hv hn hall hne

theorem plainPath_loader :
    plainPath "bower_components/webcomponentsjs/webcomponents-loader.js" := by
  refine ⟨["bower_components", "webcomponentsjs", "webcomponents-loader.js"], by simp, ?_, by rfl⟩
  intro s hs
  simp only [List.mem_cons, List.mem_singleton, List.not_mem_nil, or_false] at hs
  rcases hs with rfl | rfl | rfl <;> (unfold plainElem; decide)

theorem String_append_left_cancel (a b c : String) (h : a ++ b = a ++ c) : b = c := by
  apply String.ext
  have := congrArg String.data h
  simpa [String.data_append] using this

theorem plainPath_single (s : String) (h : plainElem s) : plainPath s :=
  ⟨[s], by simp, fun t ht => by rw [List.mem_singleton.1 ht]; exact h, rfl⟩

/-! ## Construction of the registry -/

theorem routeLoop_some (c : ProjectConfig) (pfx : String) (m : PushManifest) (routes : Routes)
    (ph : PushHeaders) :
    routeLoop (some c) pfx m routes ph =
      some (routes.foldl (fun ph rf => ph.set rf.1 (routeHeaders pfx c.Shell rf.2 m)) ph) := by
  induction routes generalizing ph with
  | nil => rfl
  | cons rf rest ih =>
    obtain ⟨route, fragment⟩ := rf
    simp only [routeLoop, List.foldl_cons]
    exact ih _

/-- Given a `FileInfo` the walk callback does not panic. -/
theorem walkFn_some (root entrypoint name version : String)
    (ct : String → String → Int → Template) (disk : Disk) (path : String) (info : FileInfo)
    (st : Option Template × Files) :
    ∃ r, walkFn root entrypoint name version ct disk path (some info) st = some r := by
  unfold walkFn
  simp only
  split_ifs
  · exact ⟨_, rfl⟩
  · cases disk.Open root (disk.Rel root path) <;> exact ⟨_, rfl⟩
  · exact ⟨_, rfl⟩

/-- Handed a nil `FileInfo` the walk callback panics. -/
theorem walkFn_nil (root entrypoint name version : String)
    (ct : String → String → Int → Template) (disk : Disk) (path : String)
    (st : Option Template × Files) :
    walkFn root entrypoint name version ct disk path none st = none := rfl

/-- A walk that passes a `FileInfo` with every path does not panic. -/
theorem walkLoop_some (root entrypoint name version : String)
    (ct : String → String → Int → Template) (disk : Disk)
    (l : List (String × Option FileInfo)) (h : ∀ e ∈ l, e.2 ≠ none) :
    ∀ st, ∃ st1, walkLoop (walkFn root entrypoint name version ct disk) l st = some st1 := by
  induction l with
  | nil => exact fun st => ⟨st, rfl⟩
  | cons e rest ih =>
    intro st
    obtain ⟨path, info⟩ := e
    cases info with
    | none => exact absurd rfl (h (path, none) (List.mem_cons_self _ _))
    | some info =>
      obtain ⟨⟨flag, st1⟩, hr⟩ := walkFn_some root entrypoint name version ct disk path info st
      cases flag with
      | false => exact ⟨st1, by simp only [walkLoop, hr]⟩
      | true =>
        obtain ⟨st2, h2⟩ := ih (fun e he => h e (List.mem_cons_of_mem _ he)) st1
        exact ⟨st2, by simp only [walkLoop, hr, h2]⟩

/-- What a build returned by `newBuild` carries: the arguments, and with a
configuration the compiled push headers. -/
theorem newBuild_inv (config : Option ProjectConfig) (configOrder : Int) (name : String)
    (requirements : capability) (entrypoint buildDir root : String) (routes : Routes)
    (version : String) (ct : String → String → Int → Template) (disk : Disk) (files : Files)
    (b : build) (fs : Files)
    (h : newBuild config configOrder name requirements entrypoint buildDir root routes version
      ct disk files = some (b, fs)) :
    b.name = name ∧ b.configOrder = configOrder ∧ b.requirements = requirements ∧
    b.entrypoint = entrypoint ∧
    ∀ c, config = some c →
      b.pushHeaders =
        routes.foldl
          (fun ph rf =>
            ph.set rf.1
              (routeHeaders (version ++ name ++ "/") c.Shell rf.2
                (disk.ReadManifest (pathJoin [buildDir, "push-manifest.json"]))))
          (manifestHeaders (version ++ name ++ "/")
            (disk.ReadManifest (pathJoin [buildDir, "push-manifest.json"])) PushHeaders.empty) := by
  unfold newBuild at h
  simp only at h
  cases hw : walkLoop (walkFn root entrypoint name version ct disk) (disk.Walk buildDir)
      (none, files) with
  | none => simp [hw] at h
  | some st =>
    obtain ⟨template, files1⟩ := st
    simp only [hw] at h
    cases hr : routeLoop config (version ++ name ++ "/")
        (disk.ReadManifest (pathJoin [buildDir, "push-manifest.json"])) routes
        (manifestHeaders (version ++ name ++ "/")
          (disk.ReadManifest (pathJoin [buildDir, "push-manifest.json"])) PushHeaders.empty) with
    | none => simp [hr] at h
    | some ph =>
      simp only [hr, Option.some.injEq, Prod.mk.injEq] at h
      obtain ⟨hb, -⟩ := h
      subst hb
      refine ⟨rfl, rfl, rfl, rfl, ?_⟩
      intro c hc
      subst hc
      rw [routeLoop_some] at hr
      exact (Option.some.inj hr).symm

/-- With a configuration at hand and a walk that passes a `FileInfo` with
every path, `newBuild` returns. -/
theorem newBuild_some (c : ProjectConfig) (configOrder : Int) (name : String)
    (requirements : capability) (entrypoint buildDir root : String) (routes : Routes)
    (version : String) (ct : String → String → Int → Template) (disk : Disk) (files : Files)
    (hwalk : ∀ e ∈ disk.Walk buildDir, e.2 ≠ none) :
    ∃ b fs, newBuild (some c) configOrder name requirements entrypoint buildDir root routes
      version ct disk files = some (b, fs) := by
  obtain ⟨⟨template, files1⟩, hw⟩ :=
    walkLoop_some root entrypoint name version ct disk (disk.Walk buildDir) hwalk (none, files)
  have heq : newBuild (some c) configOrder name requirements entrypoint buildDir root routes
      version ct disk files =
      some
        ({ name := name
           configOrder := configOrder
           requirements := requirements
           entrypoint := entrypoint
           template := template
           pushHeaders :=
             routes.foldl
               (fun ph rf =>
                 ph.set rf.1
                   (routeHeaders (version ++ name ++ "/") c.Shell rf.2
                     (disk.ReadManifest (pathJoin [buildDir, "push-manifest.json"]))))
               (manifestHeaders (version ++ name ++ "/")
                 (disk.ReadManifest (pathJoin [buildDir, "push-manifest.json"]))
                 PushHeaders.empty) },
          files1) := by
    simp only [newBuild, hw, routeLoop_some]
  exact ⟨_, _, heq⟩

/-- When the walk of the build directory starts with a nil `FileInfo` (the
directory does not exist), `newBuild` panics. -/
theorem newBuild_none (config : Option ProjectConfig) (configOrder : Int) (name : String)
    (requirements : capability) (entrypoint buildDir root : String) (routes : Routes)
    (version : String) (ct : String → String → Int → Template) (disk : Disk) (files : Files)
    (path : String) (rest : List (String × Option FileInfo))
    (hwalk : disk.Walk buildDir = (path, none) :: rest) :
    newBuild config configOrder name requirements entrypoint buildDir root routes version ct
      disk files = none := by
  simp only [newBuild, hwalk, walkLoop, walkFn_nil]

/-- What `loadLoop` returns: the slice it was given, followed by one build per
declaration with a name, each returned by `newBuild` for the declaration and
its index. -/
theorem loadLoop_inv (config : Option ProjectConfig) (entrypoint root : String)
    (routes : Routes) (version : String) (ct : String → String → Int → Template)
    (nc : List String → capability) (disk : Disk) (l : List BuildConfig) :
    ∀ (i : Nat) (acc : builds) (files : Files) (out : builds) (fs : Files),
      loadLoop config entrypoint root routes version ct nc disk i l acc files = some (out, fs) →
      ∃ bs : builds, out = acc ++ bs ∧
        List.Forall₂
          (fun (d : Nat × BuildConfig) (b : build) =>
            ∃ f f1, newBuild config (d.1 : Int) d.2.Name (nc d.2.BrowserCapabilities)
              (pathJoin [d.2.Name, entrypoint]) (pathJoin [root, d.2.Name]) root routes version
              ct disk f = some (b, f1))
          ((l.enumFrom i).filter (fun d => d.2.Name != "")) bs ∧
        (∀ b ∈ bs, (i : Int) ≤ b.configOrder) ∧
        bs.Pairwise (fun x y => x.configOrder < y.configOrder) := by
  induction l with
  | nil =>
    intro i acc files out fs h
    simp only [loadLoop, Option.some.injEq, Prod.mk.injEq] at h
    exact ⟨[], by simp [h.1], by simp [List.enumFrom], by simp, List.Pairwise.nil⟩
  | cons d rest ih =>
    intro i acc files out fs h
    by_cases hname : d.Name = ""
    · simp only [loadLoop, hname, beq_self_eq_true, if_true] at h
      obtain ⟨bs, h₁, h₂, h₃, h₄⟩ := ih (i + 1) acc files out fs h
      refine ⟨bs, h₁, ?_, ?_, h₄⟩
      · simpa [List.enumFrom, List.filter_cons, hname] using h₂
      · intro b hb
        have := h₃ b hb
        push_cast at this
        omega
    · simp only [loadLoop, beq_iff_eq, hname, if_false] at h
      cases hnb : newBuild config (i : Int) d.Name (nc d.BrowserCapabilities)
          (pathJoin [d.Name, entrypoint]) (pathJoin [root, d.Name]) root routes version ct disk
          files with
      | none => simp [hnb] at h
      | some r =>
        obtain ⟨nb, files1⟩ := r
        simp only [hnb] at h
        have hco : nb.configOrder = (i : Int) := (newBuild_inv _ _ _ _ _ _ _ _ _ _ _ _ _ _ hnb).2.1
        obtain ⟨bs, h₁, h₂, h₃, h₄⟩ := ih (i + 1) (acc ++ [nb]) files1 out fs h
        refine ⟨nb :: bs, by simpa using h₁, ?_, ?_, ?_⟩
        · simp only [List.enumFrom, List.filter_cons, bne_iff_ne, ne_eq, hname,
            not_false_eq_true, decide_True, if_true]
          exact List.Forall₂.cons ⟨files, files1, hnb⟩ h₂
        · intro b hb
          rcases List.mem_cons.1 hb with rfl | hb
          · simp [hco]
          · have := h₃ b hb
            push_cast at this
            omega
        · refine List.Pairwise.cons ?_ h₄
          intro b hb
          have := h₃ b hb
          push_cast at this
          show nb.configOrder < b.configOrder
          omega

/-- With a configuration at hand, `loadLoop` returns when the walk of every
named declaration's directory passes a `FileInfo` with every path. -/
theorem loadLoop_some (c : ProjectConfig) (entrypoint root : String) (routes : Routes)
    (version : String) (ct : String → String → Int → Template) (nc : List String → capability)
    (disk : Disk) (l : List BuildConfig)
    (hdirs : ∀ d ∈ l, d.Name ≠ "" → ∀ e ∈ disk.Walk (pathJoin [root, d.Name]), e.2 ≠ none) :
    ∀ (i : Nat) (acc : builds) (files : Files), ∃ out fs,
      loadLoop (some c) entrypoint root routes version ct nc disk i l acc files =
        some (out, fs) := by
  induction l with
  | nil => exact fun i acc files => ⟨acc, files, rfl⟩
  | cons d rest ih =>
    intro i acc files
    have hrest := ih fun x hx => hdirs x (List.mem_cons_of_mem _ hx)
    by_cases hname : d.Name = ""
    · obtain ⟨out, fs, h⟩ := hrest (i + 1) acc files
      exact ⟨out, fs, by simp only [loadLoop, hname, beq_self_eq_true, if_true, h]⟩
    · obtain ⟨nb, files1, hnb⟩ :=
        newBuild_some c (i : Int) d.Name (nc d.BrowserCapabilities)
          (pathJoin [d.Name, entrypoint]) (pathJoin [root, d.Name]) root routes version ct disk
          files (hdirs d (List.mem_cons_self _ _) hname)
      obtain ⟨out, fs, h⟩ := hrest (i + 1) (acc ++ [nb]) files1
      exact ⟨out, fs, by simp only [loadLoop, beq_iff_eq, hname, if_false, hnb, h]⟩

theorem loadBuilds_of_builds (c : ProjectConfig) (root : String) (routes : Routes)
    (version : String) (ct : String → String → Int → Template) (nc : List String → capability)
    (disk : Disk) (files : Files) (hne : c.Builds ≠ []) :
    loadBuilds (some c) root routes version ct nc disk files =
      (loadLoop (some c) (entrypointOf (some c)) root routes version ct nc disk 0 c.Builds []
        files).map fun bf => (sortSort byPriority.Less bf.1, bf.2) := by
  have hlen : (c.Builds.length == 0) = false := by
    cases hb : c.Builds with
    | nil => exact absurd hb hne
    | cons a l => rfl
  simp only [loadBuilds, hlen, Bool.false_eq_true, if_false]

theorem loadBuilds_of_no_builds (c : ProjectConfig) (root : String) (routes : Routes)
    (version : String) (ct : String → String → Int → Template) (nc : List String → capability)
    (disk : Disk) (files : Files) (he : c.Builds = []) :
    loadBuilds (some c) root routes version ct nc disk files =
      (newBuild (some c) 0 "" 0 (entrypointOf (some c)) root root routes version ct disk
        files).map fun bf => ([bf.1], bf.2) := by
  simp only [loadBuilds, he, List.length_nil, beq_self_eq_true, if_true, Option.map_map]
  cases newBuild (some c) 0 "" 0 (entrypointOf (some c)) root root routes version ct disk
    files <;> rfl

/-- Whatever `loadBuilds` returns is strictly ordered by the ordering law. -/
theorem loadBuilds_sorted (config : Option ProjectConfig) (root : String) (routes : Routes)
    (version : String) (ct : String → String → Int → Template) (nc : List String → capability)
    (disk : Disk) (files : Files) (bs : builds) (fs : Files)
    (h : loadBuilds config root routes version ct nc disk files = some (bs, fs)) :
    bs.Pairwise ordersBefore := by
  have hone : ∀ o : Option (build × Files),
      ((o.map fun bf => ([bf.1], bf.2)).map fun bf : builds × Files =>
        (sortSort byPriority.Less bf.1, bf.2)) = some (bs, fs) → bs.Pairwise ordersBefore := by
    intro o ho
    cases o with
    | none => simp at ho
    | some bf =>
      simp only [Option.map_some', sortSort, sortInsert, Option.some.injEq, Prod.mk.injEq] at ho
      rw [← ho.1]
      exact List.pairwise_singleton _ _
  cases config with
  | none => exact hone _ h
  | some c =>
    by_cases he : c.Builds = []
    · have hlen : (c.Builds.length == 0) = true := by simp [he]
      simp only [loadBuilds, hlen, if_true] at h
      exact hone _ h
    · rw [loadBuilds_of_builds c root routes version ct nc disk files he] at h
      cases hl : loadLoop (some c) (entrypointOf (some c)) root routes version ct nc disk 0
          c.Builds [] files with
      | none => simp [hl] at h
      | some r =>
        obtain ⟨out, fs1⟩ := r
        simp only [hl, Option.map_some', Option.some.injEq, Prod.mk.injEq] at h
        obtain ⟨l, hout, -, -, hlt⟩ := loadLoop_inv _ _ _ _ _ _ _ _ _ _ _ _ _ _ hl
        rw [← h.1, hout, List.nil_append]
        exact sortSort_ordersBefore l (hlt.imp fun hxy => ne_of_lt hxy)

/-- With a configuration at hand `loadBuilds` returns when the walk of every
directory it visits passes a `FileInfo` with every path: the directories of
the named declarations, or the root when nothing is declared. -/
theorem loadBuilds_some (c : ProjectConfig) (root : String) (routes : Routes)
    (version : String) (ct : String → String → Int → Template) (nc : List String → capability)
    (disk : Disk) (files : Files)
    (hdirs : ∀ d ∈ c.Builds, d.Name ≠ "" →
      ∀ e ∈ disk.Walk (pathJoin [root, d.Name]), e.2 ≠ none)
    (hroot : c.Builds = [] → ∀ e ∈ disk.Walk root, e.2 ≠ none) :
    ∃ bs fs, loadBuilds (some c) root routes version ct nc disk files = some (bs, fs) := by
  by_cases he : c.Builds = []
  · obtain ⟨b, fs, hb⟩ := newBuild_some c 0 "" 0 (entrypointOf (some c)) root root routes
      version ct disk files (hroot he)
    exact ⟨_, _, by rw [loadBuilds_of_no_builds c root routes version ct nc disk files he, hb]; rfl⟩
  · obtain ⟨out, fs, hl⟩ := loadLoop_some c (entrypointOf (some c)) root routes version ct nc
      disk c.Builds hdirs 0 [] files
    exact ⟨_, _, by rw [loadBuilds_of_builds c root routes version ct nc disk files he, hl]; rfl⟩

/-- On the example disks every directory exists. -/
theorem emptyDirs_walk (manifest : PushManifest) (dir : String) :
    ∀ e ∈ (emptyDirs manifest).Walk dir, e.2 ≠ none := by
  intro e he
  simp only [emptyDirs, List.mem_singleton] at he
  rw [he]
  simp

theorem siteDisk_walk (dir : String) : ∀ e ∈ siteDisk.Walk dir, e.2 ≠ none := by
  intro e he
  simp only [siteDisk, List.mem_cons, List.mem_singleton, List.not_mem_nil, or_false] at he
  rcases he with rfl | rfl <;> simp

/-- In a strictly ordered registry the build found is ordered before every
other build that can serve the client. -/
theorem findBuild_of_sorted (bs : builds) (hs : bs.Pairwise ordersBefore) (c : capability)
    (hex : ∃ b ∈ bs, b.canServe c = true) :
    ∃ b, findBuild bs c = some b ∧ b ∈ bs ∧ b.canServe c = true ∧
      ∀ b' ∈ bs, b'.canServe c = true → b' = b ∨ ordersBefore b b' := by
  cases hf : findBuild bs c with
  | none =>
    obtain ⟨b, hb, hc⟩ := hex
    rw [(findBuild_eq_none bs c).1 hf b hb] at hc
    cases hc
  | some b =>
    obtain ⟨pre, post, hbs, hb, hpre⟩ := (findBuild_eq_some bs c b).1 hf
    refine ⟨b, rfl, by simp [hbs], hb, ?_⟩
    intro b' hb' hc'
    rw [hbs, List.mem_append, List.mem_cons] at hb'
    rcases hb' with hin | rfl | hin
    · rw [hpre b' hin] at hc'
      cases hc'
    · exact Or.inl rfl
    · rw [hbs, List.pairwise_append, List.pairwise_cons] at hs
      exact Or.inr (hs.2.1.1 b' hin)

theorem size_three : capability.size 3 = 2 := by decide

theorem size_zero : capability.size 0 = 0 := by decide

/-- The registry of scenario A, whichever way round the two builds are
declared. -/
theorem scenario_registry (root : String) (routes : Routes) (version : String)
    (ct : String → String → Int → Template) (disk : Disk) (files : Files)
    (declared : List BuildConfig)
    (hdecl : declared = scenarioConfig.Builds ∨ declared = scenarioConfig.Builds.reverse)
    (bs : builds) (fs : Files)
    (h : loadBuilds (some { scenarioConfig with Builds := declared }) root routes version ct
      exampleCapabilities disk files = some (bs, fs)) :
    ∃ m l, bs = [m, l] ∧
      m.name = "modern" ∧ m.requirements = 3 ∧ l.name = "legacy" ∧ l.requirements = 0 ∧
      findBuild [m, l] 3 = some m ∧ findBuild [m, l] 1 = some l ∧
      findBuild [m, l] 0 = some l := by
  have h3 : exampleCapabilities ["es2015", "push"] = 3 := by decide
  have h0 : exampleCapabilities [] = 0 := by decide
  have hfind : ∀ m l : build, m.requirements = 3 → l.requirements = 0 →
      findBuild [m, l] 3 = some m ∧ findBuild [m, l] 1 = some l ∧
        findBuild [m, l] 0 = some l := by
    intro m l hm hl
    simp [findBuild, build.canServe, hm, hl]
  have hml : ∀ m l : build, m.requirements = 3 → l.requirements = 0 →
      byPriority.Less m l = true ∧ byPriority.Less l m = false := by
    intro m l hm hl
    simp [byPriority.Less, hm, hl, size_three, size_zero]
  have hne : ({ scenarioConfig with Builds := declared } : ProjectConfig).Builds ≠ [] := by
    rcases hdecl with rfl | rfl <;> simp [scenarioConfig]
  rw [loadBuilds_of_builds _ root routes version ct exampleCapabilities disk files hne] at h
  cases hl : loadLoop (some { scenarioConfig with Builds := declared })
      (entrypointOf (some { scenarioConfig with Builds := declared })) root routes version ct
      exampleCapabilities disk 0 declared [] files with
  | none => simp [hl] at h
  | some r =>
    obtain ⟨out, fs1⟩ := r
    simp only [hl, Option.map_some', Option.some.injEq, Prod.mk.injEq] at h
    obtain ⟨l, hout, hf, -, -⟩ := loadLoop_inv _ _ _ _ _ _ _ _ _ _ _ _ _ _ hl
    rw [List.nil_append] at hout
    subst hout
    rcases hdecl with rfl | rfl
    · have hlist : (List.enumFrom 0 scenarioConfig.Builds).filter (fun d => d.2.Name != "") =
          [(0, { Name := "modern", BrowserCapabilities := ["es2015", "push"] }),
           (1, { Name := "legacy", BrowserCapabilities := [] })] := by rfl
      rw [hlist] at hf
      obtain ⟨m, t, ⟨f, f1, hm⟩, ht, rfl⟩ := List.forall₂_cons_left_iff.1 hf
      obtain ⟨l, t', ⟨g, g1, hl'⟩, ht', rfl⟩ := List.forall₂_cons_left_iff.1 ht
      have hnil := List.forall₂_nil_left_iff.1 ht'
      subst hnil
      obtain ⟨hmn, -, hmr, -⟩ := newBuild_inv _ _ _ _ _ _ _ _ _ _ _ _ _ _ hm
      obtain ⟨hln, -, hlr, -⟩ := newBuild_inv _ _ _ _ _ _ _ _ _ _ _ _ _ _ hl'
      rw [h3] at hmr
      rw [h0] at hlr
      refine ⟨m, l, ?_, hmn, hmr, hln, hlr, hfind m l hmr hlr⟩
      rw [← h.1]
      simp [sortSort, sortInsert, (hml m l hmr hlr).1]
    · have hlist :
          (List.enumFrom 0 scenarioConfig.Builds.reverse).filter (fun d => d.2.Name != "") =
          [(0, { Name := "legacy", BrowserCapabilities := [] }),
           (1, { Name := "modern", BrowserCapabilities := ["es2015", "push"] })] := by rfl
      rw [hlist] at hf
      obtain ⟨l, t, ⟨g, g1, hl'⟩, ht, rfl⟩ := List.forall₂_cons_left_iff.1 hf
      obtain ⟨m, t', ⟨f, f1, hm⟩, ht', rfl⟩ := List.forall₂_cons_left_iff.1 ht
      have hnil := List.forall₂_nil_left_iff.1 ht'
      subst hnil
      obtain ⟨hmn, -, hmr, -⟩ := newBuild_inv _ _ _ _ _ _ _ _ _ _ _ _ _ _ hm
      obtain ⟨hln, -, hlr, -⟩ := newBuild_inv _ _ _ _ _ _ _ _ _ _ _ _ _ _ hl'
      rw [h3] at hmr
      rw [h0] at hlr
      refine ⟨m, l, ?_, hmn, hmr, hln, hlr, hfind m l hmr hlr⟩
      rw [← h.1]
      simp [sortSort, sortInsert, (hml m l hmr hlr).2]

/-- C1: in a registry returned by `loadBuilds`, when some build can serve the
client, `findBuild` returns a build that can serve it, no servable build has a
requirement mask of larger population count, and every other servable build of
the same population count has a higher declaration index.  In scenario A
`loadBuilds` returns when the walks of the two build directories pass a
`FileInfo` with every path, and whatever it returns is the registry
`[modern, legacy]` (also when the two are declared in the other order), in
which mask `0b11` selects `modern`, masks `0b01` and 0 select `legacy`. -/
theorem findBuild_most_specific :
    (∀ (config : Option ProjectConfig) (root : String) (routes : Routes) (version : String)
        (ct : String → String → Int → Template) (nc : List String → capability) (disk : Disk)
        (files : Files) (bs : builds) (fs : Files) (c : capability),
        loadBuilds config root routes version ct nc disk files = some (bs, fs) →
        (∃ b ∈ bs, b.canServe c = true) →
        ∃ b, findBuild bs c = some b ∧ b ∈ bs ∧ b.canServe c = true ∧
          ∀ b' ∈ bs, b'.canServe c = true →
            b'.requirements.size ≤ b.requirements.size ∧
            (b'.requirements.size = b.requirements.size →
              b' = b ∨ b.configOrder < b'.configOrder)) ∧
    (∀ (root : String) (routes : Routes) (version : String)
        (ct : String → String → Int → Template) (disk : Disk) (files : Files),
        ((∀ d ∈ scenarioConfig.Builds, d.Name ≠ "" →
            ∀ e ∈ disk.Walk (pathJoin [root, d.Name]), e.2 ≠ none) →
          ∃ bs fs, loadBuilds (some scenarioConfig) root routes version ct exampleCapabilities
            disk files = some (bs, fs)) ∧
        ∀ bs fs, loadBuilds (some scenarioConfig) root routes version ct exampleCapabilities
            disk files = some (bs, fs) →
          ∃ m l, bs = [m, l] ∧
            m.name = "modern" ∧ m.requirements = 3 ∧ l.name = "legacy" ∧ l.requirements = 0 ∧
            findBuild [m, l] 3 = some m ∧ findBuild [m, l] 1 = some l ∧
            findBuild [m, l] 0 = some l) ∧
    (∀ (root : String) (routes : Routes) (version : String)
        (ct : String → String → Int → Template) (disk : Disk) (files : Files) (bs : builds)
        (fs : Files),
        loadBuilds (some { scenarioConfig with Builds := scenarioConfig.Builds.reverse }) root
          routes version ct exampleCapabilities disk files = some (bs, fs) →
        ∃ m l, bs = [m, l] ∧
          m.name = "modern" ∧ m.requirements = 3 ∧ l.name = "legacy" ∧ l.requirements = 0 ∧
          findBuild [m, l] 3 = some m ∧ findBuild [m, l] 1 = some l ∧
          findBuild [m, l] 0 = some l) := by
  refine ⟨?_, ?_, ?_⟩
  · intro config root routes version ct nc disk files bs fs c hload hex
    obtain ⟨b, hf, hb, hc, hall⟩ :=
      findBuild_of_sorted bs
        (loadBuilds_sorted config root routes version ct nc disk files bs fs hload) c hex
    refine ⟨b, hf, hb, hc, ?_⟩
    intro b' hb' hc'
    rcases hall b' hb' hc' with rfl | hord
    · exact ⟨le_refl _, fun _ => Or.inl rfl⟩
    · unfold ordersBefore at hord
      constructor
      · omega
      · intro heq
        right
        omega
  · intro root routes version ct disk files
    constructor
    · intro hdirs
      exact loadBuilds_some scenarioConfig root routes version ct exampleCapabilities disk files
        hdirs (fun he => by simp [scenarioConfig] at he)
    · intro bs fs h
      exact scenario_registry root routes version ct disk files _ (Or.inl rfl) bs fs h
  · intro root routes version ct disk files bs fs h
    exact scenario_registry root routes version ct disk files _ (Or.inr rfl) bs fs h

/-- The registry of scenario A and the client mask `0b01`, for
`findBuild_most_specific`. -/
theorem findBuild_most_specific_witness :
    loadBuilds (some scenarioConfig) "." [] "/static/" exampleTemplate exampleCapabilities
      noManifest noFiles = some ([scenarioModern, scenarioLegacy], noFiles) ∧
    (∃ b ∈ [scenarioModern, scenarioLegacy], b.canServe 1 = true) ∧
    ∃ b, findBuild [scenarioModern, scenarioLegacy] 1 = some b ∧
      b ∈ [scenarioModern, scenarioLegacy] ∧ b.canServe 1 = true ∧
      ∀ b' ∈ [scenarioModern, scenarioLegacy], b'.canServe 1 = true →
        b'.requirements.size ≤ b.requirements.size ∧
        (b'.requirements.size = b.requirements.size →
          b' = b ∨ b.configOrder < b'.configOrder) :=
  ⟨by rfl, ⟨scenarioLegacy, by simp, by decide⟩,
    findBuild_most_specific.1 (some scenarioConfig) "." [] "/static/" exampleTemplate
      exampleCapabilities noManifest noFiles [scenarioModern, scenarioLegacy] noFiles 1 (by rfl)
      ⟨scenarioLegacy, by simp, by decide⟩⟩

/-- C2 (amended): when the configuration declares at least one build,
`loadBuilds` returns if the walk of every named declaration's directory passes
a `FileInfo` with every path, and the list it returns is such that, for
positions i < j, build i has the larger population count or the counts are
equal and build i has the lower `configOrder`; the list is a permutation of
the builds that `newBuild` returns for the declarations with a non-empty name,
each with its declaration index. -/
theorem loadBuilds_ordering (c : ProjectConfig) (root : String) (routes : Routes)
    (version : String) (ct : String → String → Int → Template) (nc : List String → capability)
    (disk : Disk) (files : Files) (hne : c.Builds ≠ []) :
    ((∀ d ∈ c.Builds, d.Name ≠ "" → ∀ e ∈ disk.Walk (pathJoin [root, d.Name]), e.2 ≠ none) →
      ∃ bs fs, loadBuilds (some c) root routes version ct nc disk files = some (bs, fs)) ∧
    ∀ bs fs, loadBuilds (some c) root routes version ct nc disk files = some (bs, fs) →
      bs.Pairwise (fun a b =>
        b.requirements.size < a.requirements.size ∨
          (a.requirements.size = b.requirements.size ∧ a.configOrder < b.configOrder)) ∧
      ∃ constructed : builds, bs.Perm constructed ∧
        List.Forall₂
          (fun (d : Nat × BuildConfig) (b : build) =>
            ∃ f f1, newBuild (some c) (d.1 : Int) d.2.Name (nc d.2.BrowserCapabilities)
              (pathJoin [d.2.Name, entrypointOf (some c)]) (pathJoin [root, d.2.Name]) root
              routes version ct disk f = some (b, f1))
          (c.Builds.enum.filter (fun d => d.2.Name != "")) constructed := by
  constructor
  · intro hdirs
    exact loadBuilds_some c root routes version ct nc disk files hdirs (fun he => absurd he hne)
  · intro bs fs h
    rw [loadBuilds_of_builds c root routes version ct nc disk files hne] at h
    cases hl : loadLoop (some c) (entrypointOf (some c)) root routes version ct nc disk 0
        c.Builds [] files with
    | none => simp [hl] at h
    | some r =>
      obtain ⟨out, fs1⟩ := r
      simp only [hl, Option.map_some', Option.some.injEq, Prod.mk.injEq] at h
      obtain ⟨l, hout, hf, -, hlt⟩ := loadLoop_inv _ _ _ _ _ _ _ _ _ _ _ _ _ _ hl
      rw [List.nil_append] at hout
      subst hout
      rw [← h.1]
      exact ⟨sortSort_ordersBefore out (hlt.imp fun hxy => ne_of_lt hxy), out,
        sortSort_perm _ out, hf⟩

/-- The configuration of scenario A on a disk with both build directories,
for `loadBuilds_ordering`. -/
theorem loadBuilds_ordering_witness :
    scenarioConfig.Builds ≠ [] ∧
    (∀ d ∈ scenarioConfig.Builds, d.Name ≠ "" →
      ∀ e ∈ noManifest.Walk (pathJoin [".", d.Name]), e.2 ≠ none) ∧
    (∃ bs fs, loadBuilds (some scenarioConfig) "." [] "/static/" exampleTemplate
      exampleCapabilities noManifest noFiles = some (bs, fs)) ∧
    ([scenarioModern, scenarioLegacy].Pairwise (fun a b =>
        b.requirements.size < a.requirements.size ∨
          (a.requirements.size = b.requirements.size ∧ a.configOrder < b.configOrder)) ∧
      ∃ constructed : builds, [scenarioModern, scenarioLegacy].Perm constructed ∧
        List.Forall₂
          (fun (d : Nat × BuildConfig) (b : build) =>
            ∃ f f1, newBuild (some scenarioConfig) (d.1 : Int) d.2.Name
              (exampleCapabilities d.2.BrowserCapabilities)
              (pathJoin [d.2.Name, entrypointOf (some scenarioConfig)])
              (pathJoin [".", d.2.Name]) "." [] "/static/" exampleTemplate noManifest f =
              some (b, f1))
          (scenarioConfig.Builds.enum.filter (fun d => d.2.Name != "")) constructed) :=
  ⟨by simp [scenarioConfig],
    fun d _ _ => emptyDirs_walk [] _,
    (loadBuilds_ordering scenarioConfig "." [] "/static/" exampleTemplate exampleCapabilities
      noManifest noFiles (by simp [scenarioConfig])).1 (fun d _ _ => emptyDirs_walk [] _),
    (loadBuilds_ordering scenarioConfig "." [] "/static/" exampleTemplate exampleCapabilities
      noManifest noFiles (by simp [scenarioConfig])).2 [scenarioModern, scenarioLegacy] noFiles
      (by rfl)⟩

/-- C2 as stated fails for the empty list of declarations: `loadBuilds` then
returns the one synthesized build, which is not a permutation of the (empty)
list of builds constructed from declarations.  It also fails when the
directory of a declared build does not exist: `loadBuilds` then panics in the
walk callback and returns nothing. -/
theorem loadBuilds_ordering_counterexample :
    (emptyConfig.Builds.enum.filter (fun d => d.2.Name != "") = [] ∧
      (∃ b fs, loadBuilds (some emptyConfig) "." [] "/static/" exampleTemplate
        exampleCapabilities noManifest noFiles = some ([b], fs)) ∧
      ¬ ∃ bs fs, loadBuilds (some emptyConfig) "." [] "/static/" exampleTemplate
          exampleCapabilities noManifest noFiles = some (bs, fs) ∧
        ∃ constructed : builds, bs.Perm constructed ∧
          List.Forall₂
            (fun (d : Nat × BuildConfig) (b : build) =>
              ∃ f f1, newBuild (some emptyConfig) (d.1 : Int) d.2.Name
                (exampleCapabilities d.2.BrowserCapabilities)
                (pathJoin [d.2.Name, entrypointOf (some emptyConfig)])
                (pathJoin [".", d.2.Name]) "." [] "/static/" exampleTemplate noManifest f =
                some (b, f1))
            (emptyConfig.Builds.enum.filter (fun d => d.2.Name != "")) constructed) ∧
    ((noDirs []).Walk (pathJoin [".", "modern"]) = [("modern", none)] ∧
      loadBuilds (some scenarioConfig) "." [] "/static/" exampleTemplate exampleCapabilities
        (noDirs []) noFiles = none) := by
  refine ⟨⟨rfl, ⟨_, _, rfl⟩, ?_⟩, by rfl, by rfl⟩
  rintro ⟨bs, fs, hbs, constructed, hperm, hforall⟩
  have hnil : emptyConfig.Builds.enum.filter (fun d => d.2.Name != "") = [] := rfl
  rw [hnil] at hforall
  cases hforall
  have hlen := hperm.length_eq
  have hload : ∃ b fs, loadBuilds (some emptyConfig) "." [] "/static/" exampleTemplate
      exampleCapabilities noManifest noFiles = some ([b], fs) := ⟨_, _, rfl⟩
  obtain ⟨b, fs', hb⟩ := hload
  rw [hb] at hbs
  simp only [Option.some.injEq, Prod.mk.injEq] at hbs
  rw [← hbs.1] at hlen
  simp at hlen

/-- C10 (amended): for a configuration whose build list is empty `loadBuilds`
returns if the walk of the root passes a `FileInfo` with every path, and what
it returns is exactly one build, with the empty name, `configOrder` 0 and
requirement mask 0, which `findBuild` returns for every client mask. -/
theorem loadBuilds_no_builds (c : ProjectConfig) (root : String) (routes : Routes)
    (version : String) (ct : String → String → Int → Template) (nc : List String → capability)
    (disk : Disk) (files : Files) (he : c.Builds = []) :
    ((∀ e ∈ disk.Walk root, e.2 ≠ none) →
      ∃ bs fs, loadBuilds (some c) root routes version ct nc disk files = some (bs, fs)) ∧
    ∀ bs fs, loadBuilds (some c) root routes version ct nc disk files = some (bs, fs) →
      ∃ b, bs = [b] ∧ b.name = "" ∧ b.configOrder = 0 ∧ b.requirements = 0 ∧
        ∀ client : capability, findBuild bs client = some b := by
  constructor
  · intro hroot
    exact loadBuilds_some c root routes version ct nc disk files
      (fun d hd => by rw [he] at hd; cases hd) (fun _ => hroot)
  · intro bs fs h
    rw [loadBuilds_of_no_builds c root routes version ct nc disk files he] at h
    cases hb : newBuild (some c) 0 "" 0 (entrypointOf (some c)) root root routes version ct disk
        files with
    | none => simp [hb] at h
    | some r =>
      obtain ⟨b, fs1⟩ := r
      simp only [hb, Option.map_some', Option.some.injEq, Prod.mk.injEq] at h
      obtain ⟨hn, hc, hr, -⟩ := newBuild_inv _ _ _ _ _ _ _ _ _ _ _ _ _ _ hb
      refine ⟨b, h.1.symm, hn, hc, hr, ?_⟩
      intro client
      rw [← h.1]
      simp [findBuild, build.canServe, hr]

/-- A configuration without builds on a disk whose root exists, for
`loadBuilds_no_builds`. -/
theorem loadBuilds_no_builds_witness :
    emptyConfig.Builds = [] ∧
    (∀ e ∈ siteDisk.Walk ".", e.2 ≠ none) ∧
    (∃ bs fs, loadBuilds (some emptyConfig) "." [("/home", "home-view.html")] "/static/"
      exampleTemplate exampleCapabilities siteDisk noFiles = some (bs, fs)) ∧
    ∃ bs fs, loadBuilds (some emptyConfig) "." [("/home", "home-view.html")] "/static/"
        exampleTemplate exampleCapabilities siteDisk noFiles = some (bs, fs) ∧
      ∃ b, bs = [b] ∧ b.name = "" ∧ b.configOrder = 0 ∧ b.requirements = 0 ∧
        ∀ client : capability, findBuild bs client = some b :=
  ⟨rfl, siteDisk_walk ".",
    (loadBuilds_no_builds emptyConfig "." [("/home", "home-view.html")] "/static/"
      exampleTemplate exampleCapabilities siteDisk noFiles rfl).1 (siteDisk_walk "."),
    _, _, rfl,
    (loadBuilds_no_builds emptyConfig "." [("/home", "home-view.html")] "/static/"
      exampleTemplate exampleCapabilities siteDisk noFiles rfl).2 _ _ rfl⟩

/-- C10 as stated fails for a root that does not exist: the walk hands the
callback a nil `FileInfo`, `info.IsDir()` panics and `loadBuilds` returns
nothing. -/
theorem loadBuilds_no_builds_counterexample :
    emptyConfig.Builds = [] ∧
    (noDirs []).Walk "." = [(".", none)] ∧
    loadBuilds (some emptyConfig) "." [] "/static/" exampleTemplate exampleCapabilities
      (noDirs []) noFiles = none :=
  ⟨rfl, rfl, by rfl⟩

/-! ## Push-header compilation -/

theorem PushHeaders.set_same (ph : PushHeaders) (k : String) (v : List linkHeader) :
    ph.set k v k = some v := by
  simp [PushHeaders.set]

theorem PushHeaders.set_other (ph : PushHeaders) (k q : String) (v : List linkHeader)
    (h : q ≠ k) : ph.set k v q = ph q := by
  simp [PushHeaders.set, h]

/-- A key that no round of a storing loop writes keeps its entry. -/
theorem foldl_set_other {α : Type} (key : α → String) (val : α → List linkHeader)
    (l : List α) (ph : PushHeaders) (q : String) (h : ∀ x ∈ l, key x ≠ q) :
    (l.foldl (fun ph x => ph.set (key x) (val x)) ph) q = ph q := by
  induction l using List.reverseRecOn with
  | nil => rfl
  | append_singleton init y ih =>
    rw [List.foldl_append, List.foldl_cons, List.foldl_nil,
      PushHeaders.set_other _ _ _ _ (Ne.symm (h y (by simp)))]
    exact ih fun x hx => h x (by simp [hx])

/-- After a storing loop, the key of a visited element holds that element's
value, when every element with the same key has the same value. -/
theorem foldl_set_mem {α : Type} (key : α → String) (val : α → List linkHeader)
    (l : List α) (ph : PushHeaders) (x : α) (hx : x ∈ l)
    (h : ∀ y ∈ l, key y = key x → val y = val x) :
    (l.foldl (fun ph x => ph.set (key x) (val x)) ph) (key x) = some (val x) := by
  induction l using List.reverseRecOn with
  | nil => simp at hx
  | append_singleton init y ih =>
    rw [List.foldl_append, List.foldl_cons, List.foldl_nil]
    by_cases hk : key y = key x
    · rw [← hk, PushHeaders.set_same, h y (by simp) hk]
    · rw [PushHeaders.set_other _ _ _ _ (Ne.symm hk)]
      have hx' : x ∈ init := by
        rcases List.mem_append.1 hx with hx | hx
        · exact hx
        · rw [List.mem_singleton] at hx
          rw [hx] at hk
          exact absurd rfl hk
      exact ih hx' fun z hz => h z (by simp [hz])

theorem routeHeaders_empty (pfx shell fragment : String) :
    routeHeaders pfx shell fragment [] =
      [{ file := pathJoin [pfx, "bower_components/webcomponentsjs/webcomponents-loader.js"],
         as := "script" },
       { file := pathJoin [pfx, shell], as := "document" },
       { file := pathJoin [pfx, fragment], as := "document" }] := by
  simp [routeHeaders, addLinks, PushManifest.get]

/-- The entry that a build returned by `newBuild` holds under a route of the
route table. -/
theorem newBuild_route (c : ProjectConfig) (configOrder : Int) (name : String)
    (requirements : capability) (entrypoint buildDir root : String) (routes : Routes)
    (version : String) (ct : String → String → Int → Template) (disk : Disk) (files : Files)
    (route fragment : String) (hmap : (routes.map Prod.fst).Nodup)
    (hmem : (route, fragment) ∈ routes) (b : build) (fs : Files)
    (h : newBuild (some c) configOrder name requirements entrypoint buildDir root routes
      version ct disk files = some (b, fs)) :
    b.pushHeaders route =
      some (routeHeaders (version ++ name ++ "/") c.Shell fragment
        (disk.ReadManifest (pathJoin [buildDir, "push-manifest.json"]))) := by
  rw [(newBuild_inv _ _ _ _ _ _ _ _ _ _ _ _ _ _ h).2.2.2.2 c rfl]
  exact foldl_set_mem Prod.fst
    (fun rf => routeHeaders (version ++ name ++ "/") c.Shell rf.2
      (disk.ReadManifest (pathJoin [buildDir, "push-manifest.json"])))
    routes _ (route, fragment) hmem
    (fun y hy hk => by rw [List.inj_on_of_nodup_map hmap hy hmem hk])

/-- C7 (amended): with an empty manifest, for every (route, fragment) pair of
the route table, `newBuild` returns if the walk of the build directory passes
a `FileInfo` with every path, and the build it returns holds, under the route
pattern itself, exactly the script link of the webcomponents loader, the
document link of the shell and the document link of the fragment, in that
order, each with the target `path.Join(prefix, name)`.  When the version is
`/v/` and `v`, the build name and the elements of the shell and fragment paths
are plain, each target is the prefix followed by the name.  In scenario C the
three targets are the loader, `shell.html` and `home-view.html` under
`/v1/modern/`. -/
theorem newBuild_route_entry :
    (∀ (c : ProjectConfig) (configOrder : Int) (name : String) (requirements : capability)
        (entrypoint buildDir root : String) (routes : Routes) (version : String)
        (ct : String → String → Int → Template) (disk : Disk) (files : Files)
        (route fragment : String),
        disk.ReadManifest (pathJoin [buildDir, "push-manifest.json"]) = [] →
        (routes.map Prod.fst).Nodup →
        (route, fragment) ∈ routes →
        ((∀ e ∈ disk.Walk buildDir, e.2 ≠ none) →
          ∃ b fs, newBuild (some c) configOrder name requirements entrypoint buildDir root
            routes version ct disk files = some (b, fs)) ∧
        ∀ b fs, newBuild (some c) configOrder name requirements entrypoint buildDir root routes
            version ct disk files = some (b, fs) →
          b.pushHeaders route =
            some
              [{ file := pathJoin [version ++ name ++ "/",
                   "bower_components/webcomponentsjs/webcomponents-loader.js"],
                 as := "script" },
               { file := pathJoin [version ++ name ++ "/", c.Shell], as := "document" },
               { file := pathJoin [version ++ name ++ "/", fragment], as := "document" }]) ∧
    (∀ (c : ProjectConfig) (configOrder : Int) (v name : String) (requirements : capability)
        (entrypoint buildDir root : String) (routes : Routes)
        (ct : String → String → Int → Template) (disk : Disk) (files : Files)
        (route fragment : String),
        plainElem v → plainElem name → plainPath c.Shell → plainPath fragment →
        disk.ReadManifest (pathJoin [buildDir, "push-manifest.json"]) = [] →
        (routes.map Prod.fst).Nodup →
        (route, fragment) ∈ routes →
        ∀ b fs, newBuild (some c) configOrder name requirements entrypoint buildDir root routes
            ("/" ++ v ++ "/") ct disk files = some (b, fs) →
          b.pushHeaders route =
            some
              [{ file := "/" ++ v ++ "/" ++ name ++ "/" ++
                   "bower_components/webcomponentsjs/webcomponents-loader.js",
                 as := "script" },
               { file := "/" ++ v ++ "/" ++ name ++ "/" ++ c.Shell, as := "document" },
               { file := "/" ++ v ++ "/" ++ name ++ "/" ++ fragment, as := "document" }]) ∧
    (∃ b fs, newBuild (some scenarioConfig) 0 "modern" 3 "modern/index.html" "modern" "."
          [("/home", "home-view.html")] "/v1/" exampleTemplate noManifest noFiles =
          some (b, fs) ∧
        b.pushHeaders "/home" =
          some
            [{ file := "/v1/modern/bower_components/webcomponentsjs/webcomponents-loader.js",
               as := "script" },
             { file := "/v1/modern/shell.html", as := "document" },
             { file := "/v1/modern/home-view.html", as := "document" }] ∧
        (b.pushHeaders "/home").map (List.map linkHeader.String) =
          some
            ["</v1/modern/bower_components/webcomponentsjs/webcomponents-loader.js>; rel=preload; as=script",
             "</v1/modern/shell.html>; rel=preload; as=document",
             "</v1/modern/home-view.html>; rel=preload; as=document"]) := by
  refine ⟨?_, ?_, ?_⟩
  · intro c configOrder name requirements entrypoint buildDir root routes version ct disk files
      route fragment hempty hmap hmem
    constructor
    · intro hwalk
      exact newBuild_some c configOrder name requirements entrypoint buildDir root routes
        version ct disk files hwalk
    · intro b fs h
      rw [newBuild_route c configOrder name requirements entrypoint buildDir root routes version
        ct disk files route fragment hmap hmem b fs h, hempty, routeHeaders_empty]
  · intro c configOrder v name requirements entrypoint buildDir root routes ct disk files route
      fragment hv hn hshell hfrag hempty hmap hmem b fs h
    rw [newBuild_route c configOrder name requirements entrypoint buildDir root routes
      ("/" ++ v ++ "/") ct disk files route fragment hmap hmem b fs h, hempty,
      routeHeaders_empty, pathJoin_plainPath v name _ hv hn plainPath_loader,
      pathJoin_plainPath v name _ hv hn hshell, pathJoin_plainPath v name _ hv hn hfrag]
  · exact ⟨_, _, rfl, by rfl, by rfl⟩

/-- Scenario C, for `newBuild_route_entry`. -/
theorem newBuild_route_entry_witness :
    noManifest.ReadManifest (pathJoin ["modern", "push-manifest.json"]) = [] ∧
    ([("/home", "home-view.html")].map Prod.fst).Nodup ∧
    ("/home", "home-view.html") ∈ [("/home", "home-view.html")] ∧
    (∀ e ∈ noManifest.Walk "modern", e.2 ≠ none) ∧
    (∃ b fs, newBuild (some scenarioConfig) 0 "modern" 3 "modern/index.html" "modern" "."
      [("/home", "home-view.html")] "/v1/" exampleTemplate noManifest noFiles = some (b, fs)) ∧
    ∃ b fs, newBuild (some scenarioConfig) 0 "modern" 3 "modern/index.html" "modern" "."
        [("/home", "home-view.html")] "/v1/" exampleTemplate noManifest noFiles = some (b, fs) ∧
      b.pushHeaders "/home" =
        some
          [{ file := pathJoin ["/v1/" ++ "modern" ++ "/",
               "bower_components/webcomponentsjs/webcomponents-loader.js"],
             as := "script" },
           { file := pathJoin ["/v1/" ++ "modern" ++ "/", scenarioConfig.Shell],
             as := "document" },
           { file := pathJoin ["/v1/" ++ "modern" ++ "/", "home-view.html"],
             as := "document" }] ∧
      (plainElem "v1" ∧ plainElem "modern" ∧ plainPath scenarioConfig.Shell ∧
        plainPath "home-view.html") ∧
      b.pushHeaders "/home" =
        some
          [{ file := "/" ++ "v1" ++ "/" ++ "modern" ++ "/" ++
               "bower_components/webcomponentsjs/webcomponents-loader.js",
             as := "script" },
           { file := "/" ++ "v1" ++ "/" ++ "modern" ++ "/" ++ scenarioConfig.Shell,
             as := "document" },
           { file := "/" ++ "v1" ++ "/" ++ "modern" ++ "/" ++ "home-view.html",
             as := "document" }] :=
  ⟨rfl, by simp, by simp, emptyDirs_walk [] "modern",
    (newBuild_route_entry.1 scenarioConfig 0 "modern" 3 "modern/index.html" "modern" "."
      [("/home", "home-view.html")] "/v1/" exampleTemplate noManifest noFiles "/home"
      "home-view.html" rfl (by simp) (by simp)).1 (emptyDirs_walk [] "modern"),
    _, _, rfl,
    (newBuild_route_entry.1 scenarioConfig 0 "modern" 3 "modern/index.html" "modern" "."
      [("/home", "home-view.html")] "/v1/" exampleTemplate noManifest noFiles "/home"
      "home-view.html" rfl (by simp) (by simp)).2 _ _ rfl,
    ⟨by unfold plainElem; decide, by unfold plainElem; decide,
      plainPath_single _ (by unfold plainElem; decide),
      plainPath_single _ (by unfold plainElem; decide)⟩,
    newBuild_route_entry.2.1 scenarioConfig 0 "v1" "modern" 3 "modern/index.html" "modern" "."
      [("/home", "home-view.html")] exampleTemplate noManifest noFiles "/home" "home-view.html"
      (by unfold plainElem; decide) (by unfold plainElem; decide)
      (plainPath_single _ (by unfold plainElem; decide))
      (plainPath_single _ (by unfold plainElem; decide)) rfl (by simp) (by simp) _ _ rfl⟩

/-- C7 as stated fails in two ways.  A shell path with a `..` element is joined
and cleaned out of the prefix: with the prefix `/v1/modern/` the shell
`../x.html` gives the target `/v1/x.html`, which does not begin with the
prefix.  And when the build directory does not exist `newBuild` panics in the
walk callback, so there is no push-header map. -/
theorem newBuild_route_entry_counterexample :
    (∃ b fs, newBuild (some { scenarioConfig with Shell := "../x.html" }) 0 "modern" 3
          "modern/index.html" "modern" "." [("/home", "home-view.html")] "/v1/" exampleTemplate
          noManifest noFiles = some (b, fs) ∧
        b.pushHeaders "/home" =
          some
            [{ file := "/v1/modern/bower_components/webcomponentsjs/webcomponents-loader.js",
               as := "script" },
             { file := "/v1/x.html", as := "document" },
             { file := "/v1/modern/home-view.html", as := "document" }] ∧
        ("/v1/" ++ "modern" ++ "/").data.isPrefixOf "/v1/x.html".data = false) ∧
    ((noDirs []).Walk "modern" = [("modern", none)] ∧
      newBuild (some scenarioConfig) 0 "modern" 3 "modern/index.html" "modern" "."
        [("/home", "home-view.html")] "/v1/" exampleTemplate (noDirs []) noFiles = none) :=
  ⟨⟨_, _, rfl, by rfl, by rfl⟩, by rfl, by rfl⟩

/-- The entry that `newBuild` compiles for a file of the manifest. -/
theorem newBuild_manifest (c : ProjectConfig) (configOrder : Int) (name : String)
    (requirements : capability) (entrypoint buildDir root : String) (routes : Routes)
    (version : String) (ct : String → String → Int → Template) (disk : Disk) (files : Files)
    (file : String) (deps : List (String × Asset))
    (hmem : (file, deps) ∈ disk.ReadManifest (pathJoin [buildDir, "push-manifest.json"]))
    (hkey : ∀ fd ∈ disk.ReadManifest (pathJoin [buildDir, "push-manifest.json"]),
      pathJoin [version ++ name ++ "/", fd.1] = pathJoin [version ++ name ++ "/", file] →
        fd.2 = deps)
    (hroute : ∀ rf ∈ routes, rf.1 ≠ pathJoin [version ++ name ++ "/", file]) :
    ((∀ e ∈ disk.Walk buildDir, e.2 ≠ none) →
      ∃ b fs, newBuild (some c) configOrder name requirements entrypoint buildDir root
        routes version ct disk files = some (b, fs)) ∧
    ∀ b fs, newBuild (some c) configOrder name requirements entrypoint buildDir root routes
        version ct disk files = some (b, fs) →
      b.pushHeaders (pathJoin [version ++ name ++ "/", file]) =
        some (deps.map fun pa =>
          { file := pathJoin [version ++ name ++ "/", pa.1], as := pa.2.type }) := by
  constructor
  · intro hwalk
    exact newBuild_some c configOrder name requirements entrypoint buildDir root routes
      version ct disk files hwalk
  · intro b fs h
    rw [(newBuild_inv _ _ _ _ _ _ _ _ _ _ _ _ _ _ h).2.2.2.2 c rfl]
    rw [foldl_set_other Prod.fst
      (fun rf => routeHeaders (version ++ name ++ "/") c.Shell rf.2
        (disk.ReadManifest (pathJoin [buildDir, "push-manifest.json"]))) routes _ _ hroute]
    exact foldl_set_mem (fun fa => pathJoin [version ++ name ++ "/", fa.1])
      (fun fa => fa.2.map (assetLink (version ++ name ++ "/")))
      (disk.ReadManifest (pathJoin [buildDir, "push-manifest.json"])) _ (file, deps) hmem
      (fun y hy hk => by
        show List.map _ y.2 = List.map _ deps
        rw [hkey y hy hk])

/-- C6 (amended): for every (file, dependencies) pair of the manifest, when no
route and no manifest file with other dependencies yields the same key,
`newBuild` returns if the walk of the build directory passes a `FileInfo` with
every path, and the build it returns holds under the key
`path.Join(prefix, file)` exactly one link per dependency, in order, with
target `path.Join(prefix, dependencyPath)` and the type of the descriptor,
where prefix is `version + name + "/"`.  When the version is `/v/` and `v`,
the build name and the elements of the manifest's paths are plain, the key is
the concatenation `prefix + file` and each target is `prefix + dependencyPath`.
In scenario B the key is `/v1/modern/a.js` and maps to the single link
`</v1/modern/b.js>; rel=preload; as=script`. -/
theorem newBuild_manifest_entry :
    (∀ (c : ProjectConfig) (configOrder : Int) (name : String) (requirements : capability)
        (entrypoint buildDir root : String) (routes : Routes) (version : String)
        (ct : String → String → Int → Template) (disk : Disk) (files : Files)
        (file : String) (deps : List (String × Asset)),
        (file, deps) ∈ disk.ReadManifest (pathJoin [buildDir, "push-manifest.json"]) →
        (∀ fd ∈ disk.ReadManifest (pathJoin [buildDir, "push-manifest.json"]),
          pathJoin [version ++ name ++ "/", fd.1] = pathJoin [version ++ name ++ "/", file] →
            fd.2 = deps) →
        (∀ rf ∈ routes, rf.1 ≠ pathJoin [version ++ name ++ "/", file]) →
        ((∀ e ∈ disk.Walk buildDir, e.2 ≠ none) →
          ∃ b fs, newBuild (some c) configOrder name requirements entrypoint buildDir root
            routes version ct disk files = some (b, fs)) ∧
        ∀ b fs, newBuild (some c) configOrder name requirements entrypoint buildDir root routes
            version ct disk files = some (b, fs) →
          b.pushHeaders (pathJoin [version ++ name ++ "/", file]) =
            some (deps.map fun pa =>
              { file := pathJoin [version ++ name ++ "/", pa.1], as := pa.2.type })) ∧
    (∀ (c : ProjectConfig) (configOrder : Int) (v name : String) (requirements : capability)
        (entrypoint buildDir root : String) (routes : Routes)
        (ct : String → String → Int → Template) (disk : Disk) (files : Files)
        (file : String) (deps : List (String × Asset)),
        plainElem v → plainElem name →
        ((disk.ReadManifest (pathJoin [buildDir, "push-manifest.json"])).map Prod.fst).Nodup →
        (∀ fd ∈ disk.ReadManifest (pathJoin [buildDir, "push-manifest.json"]),
          plainPath fd.1) →
        (∀ pa ∈ deps, plainPath pa.1) →
        (file, deps) ∈ disk.ReadManifest (pathJoin [buildDir, "push-manifest.json"]) →
        (∀ rf ∈ routes, rf.1 ≠ "/" ++ v ++ "/" ++ name ++ "/" ++ file) →
        ∀ b fs, newBuild (some c) configOrder name requirements entrypoint buildDir root routes
            ("/" ++ v ++ "/") ct disk files = some (b, fs) →
          b.pushHeaders ("/" ++ v ++ "/" ++ name ++ "/" ++ file) =
            some (deps.map fun pa =>
              { file := "/" ++ v ++ "/" ++ name ++ "/" ++ pa.1, as := pa.2.type })) ∧
    (∃ b fs, newBuild (some scenarioConfig) 0 "modern" 3 "modern/index.html" "modern" "." []
          "/v1/" exampleTemplate scenarioManifest noFiles = some (b, fs) ∧
        pathJoin ["/v1/" ++ "modern" ++ "/", "a.js"] = "/v1/modern/a.js" ∧
        b.pushHeaders "/v1/modern/a.js" = some [{ file := "/v1/modern/b.js", as := "script" }] ∧
        (b.pushHeaders "/v1/modern/a.js").map (List.map linkHeader.String) =
          some ["</v1/modern/b.js>; rel=preload; as=script"]) := by
  refine ⟨newBuild_manifest, ?_, ?_⟩
  · intro c configOrder v name requirements entrypoint buildDir root routes ct disk files file
      deps hv hn hmap hplain hdeps hmem hroute b fs h
    have hfile := pathJoin_plainPath v name file hv hn (hplain (file, deps) hmem)
    have hmain := (newBuild_manifest c configOrder name requirements entrypoint buildDir root
      routes ("/" ++ v ++ "/") ct disk files file deps hmem
      (by
        intro fd hfd hk
        rw [pathJoin_plainPath v name fd.1 hv hn (hplain fd hfd), hfile] at hk
        have h1 : fd.1 = file := String_append_left_cancel _ _ _ hk
        have h2 : fd = (file, deps) := List.inj_on_of_nodup_map hmap hfd hmem h1
        rw [h2])
      (by rw [hfile]; exact hroute)).2 b fs h
    rw [hfile] at hmain
    rw [hmain]
    congr 1
    apply List.map_congr_left
    intro pa hpa
    rw [pathJoin_plainPath v name pa.1 hv hn (hdeps pa hpa)]
  · exact ⟨_, _, rfl, by rfl, by rfl, by rfl⟩

/-- Scenario B, for `newBuild_manifest_entry`. -/
theorem newBuild_manifest_entry_witness :
    ("a.js", [("b.js", ({ type := "script" } : Asset))]) ∈
      scenarioManifest.ReadManifest (pathJoin ["modern", "push-manifest.json"]) ∧
    (∀ e ∈ scenarioManifest.Walk "modern", e.2 ≠ none) ∧
    (∃ b fs, newBuild (some scenarioConfig) 0 "modern" 3 "modern/index.html" "modern" "." []
      "/v1/" exampleTemplate scenarioManifest noFiles = some (b, fs)) ∧
    ∃ b fs, newBuild (some scenarioConfig) 0 "modern" 3 "modern/index.html" "modern" "." []
        "/v1/" exampleTemplate scenarioManifest noFiles = some (b, fs) ∧
      b.pushHeaders (pathJoin ["/v1/" ++ "modern" ++ "/", "a.js"]) =
        some ([("b.js", ({ type := "script" } : Asset))].map fun pa =>
          { file := pathJoin ["/v1/" ++ "modern" ++ "/", pa.1], as := pa.2.type }) :=
  ⟨by simp [scenarioManifest, emptyDirs], emptyDirs_walk _ "modern",
    (newBuild_manifest_entry.1 scenarioConfig 0 "modern" 3 "modern/index.html" "modern" "." []
      "/v1/" exampleTemplate scenarioManifest noFiles "a.js" [("b.js", { type := "script" })]
      (by simp [scenarioManifest, emptyDirs])
      (by
        intro fd hfd _
        simp only [scenarioManifest, emptyDirs, List.mem_singleton] at hfd
        rw [hfd])
      (by simp)).1 (emptyDirs_walk _ "modern"),
    _, _, rfl,
    (newBuild_manifest_entry.1 scenarioConfig 0 "modern" 3 "modern/index.html" "modern" "." []
      "/v1/" exampleTemplate scenarioManifest noFiles "a.js" [("b.js", { type := "script" })]
      (by simp [scenarioManifest, emptyDirs])
      (by
        intro fd hfd _
        simp only [scenarioManifest, emptyDirs, List.mem_singleton] at hfd
        rw [hfd])
      (by simp)).2 _ _ rfl⟩

/-- C6 as stated fails in two ways.  For the unnamed build that `loadBuilds`
synthesizes the prefix is `/static//`, the concatenation `prefix + file` is
`/static//a.js` and holds nothing, the entry is under `/static/a.js`.  And
when the build directory does not exist `newBuild` panics in the walk
callback, so there is no push-header map. -/
theorem newBuild_manifest_entry_counterexample :
    (∃ b fs, loadBuilds (some emptyConfig) "." [] "/static/" exampleTemplate exampleCapabilities
          scenarioManifest noFiles = some ([b], fs) ∧
        "/static/" ++ b.name ++ "/" ++ "a.js" = "/static//a.js" ∧
        b.pushHeaders ("/static/" ++ b.name ++ "/" ++ "a.js") = none ∧
        b.pushHeaders "/static/a.js" = some [{ file := "/static/b.js", as := "script" }]) ∧
    ((noDirs [("a.js", [("b.js", { type := "script" })])]).Walk "modern" = [("modern", none)] ∧
      newBuild (some scenarioConfig) 0 "modern" 3 "modern/index.html" "modern" "." [] "/v1/"
        exampleTemplate (noDirs [("a.js", [("b.js", { type := "script" })])]) noFiles = none) :=
  ⟨⟨_, _, rfl, by rfl, by rfl, by rfl⟩, by rfl, by rfl⟩

/-- C5 (failing input): the shell's manifest entry names the fragment
`home-view.html` as a document.  The list stored under the route `/home` then
holds the fragment's canonical link twice: once from the shell's dependencies
and once more from the unconditional append of the fragment link. -/
theorem routeHeaders_fragment_duplicate :
    ∃ b fs, newBuild (some scenarioConfig) 0 "modern" 3 "modern/index.html" "modern" "."
        [("/home", "home-view.html")] "/v1/" exampleTemplate shellImportsFragment noFiles =
        some (b, fs) ∧
      b.pushHeaders "/home" =
        some
          [{ file := "/v1/modern/bower_components/webcomponentsjs/webcomponents-loader.js",
             as := "script" },
           { file := "/v1/modern/shell.html", as := "document" },
           { file := "/v1/modern/home-view.html", as := "document" },
           { file := "/v1/modern/home-view.html", as := "document" }] ∧
      (b.pushHeaders "/home").map
          (fun l => (l.map linkHeader.String).count
            "</v1/modern/home-view.html>; rel=preload; as=document") = some 2 :=
  ⟨_, _, rfl, by rfl, by rfl⟩

/-- The walk callback at work: on a disk whose build directory holds
`index.html` with a base element for `/modern/`, the template and the cached
file of the build carry the content with the version put in front. -/
theorem newBuild_entrypoint_example :
    ∃ b fs, newBuild (some scenarioConfig) 0 "modern" 3 "modern/index.html" "modern" "." []
        "/static/" exampleTemplate siteDisk noFiles = some (b, fs) ∧
      b.template =
        some
          { name := "modern/index.html"
            data := "<base href=" ++ quote ++ "/static/modern/" ++ quote ++ ">"
            modTime := 1500000000 } ∧
      (fs "modern/index.html").map (fun f => f.data) =
        some ("<base href=" ++ quote ++ "/static/modern/" ++ quote ++ ">") ∧
      fs "modern/app.js" = none :=
  ⟨_, _, rfl, by rfl, by rfl, by rfl⟩

/-! ## Header application -/

theorem foldl_Add_Link (links : List linkHeader) (h : Header) :
    (links.foldl (fun h link => h.Add "Link" link.String) h) "Link" =
      h "Link" ++ links.map linkHeader.String := by
  induction links generalizing h with
  | nil => simp
  | cons l rest ih =>
    rw [List.foldl_cons, ih]
    simp [Header.Add]

theorem foldl_Add_other (links : List linkHeader) (h : Header) (q : String)
    (hq : q ≠ "Link") :
    (links.foldl (fun h link => h.Add "Link" link.String) h) q = h q := by
  induction links generalizing h with
  | nil => rfl
  | cons l rest ih =>
    rw [List.foldl_cons, ih]
    simp [Header.Add, hq]

/-- The effect of `addHeaders` once the lookup has produced a list. -/
theorem addHeaders_found (b : build) (p : PRPL) (w : ResponseWriter) (r : Request)
    (L : List linkHeader)
    (h : b.pushHeaders r.Path = some L ∨
      (b.pushHeaders r.Path = none ∧ b.pushHeaders (p.version ++ r.Path) = some L)) :
    (b.addHeaders p w r).header "Link" = w.header "Link" ++ L.map linkHeader.String ∧
    ∀ q, q ≠ "Link" → (b.addHeaders p w r).header q = w.header q := by
  have hfound : (match b.pushHeaders r.Path with
      | some links => some links
      | none => b.pushHeaders (p.version ++ r.Path)) = some L := by
    rcases h with h | ⟨h₁, h₂⟩
    · rw [h]
    · rw [h₁, h₂]
  unfold build.addHeaders
  simp only [hfound]
  constructor
  · rw [foldl_Add_Link]
    split_ifs <;> rfl
  · intro q hq
    rw [foldl_Add_other _ _ _ hq]
    split_ifs <;> rfl

theorem addHeaders_header_other (b : build) (p : PRPL) (w : ResponseWriter) (r : Request)
    (q : String) (hq : q ≠ "Link") : (b.addHeaders p w r).header q = w.header q := by
  cases h₁ : b.pushHeaders r.Path with
  | some L => exact (addHeaders_found b p w r L (Or.inl h₁)).2 q hq
  | none =>
    cases h₂ : b.pushHeaders (p.version ++ r.Path) with
    | some L => exact (addHeaders_found b p w r L (Or.inr ⟨h₁, h₂⟩)).2 q hq
    | none =>
      unfold build.addHeaders
      simp only [h₁, h₂]

/-- C8 (amended): `addHeaders` looks the request path up as it is and, when
that key is absent, with the version prefix put in front.  A list stored under
the request path, or stored under version + path while the path itself is not
a key, is resolved: one `Link` header per element is appended, in list order,
in canonical form, and no other header changes.  When neither key is present
the response is returned unchanged.  (A list stored under the bare key `p` is
not found by a request for version + `p`.) -/
theorem addHeaders_lookup (b : build) (p : PRPL) (w : ResponseWriter) (r : Request) :
    (∀ L, b.pushHeaders r.Path = some L →
      (b.addHeaders p w r).header "Link" = w.header "Link" ++ L.map linkHeader.String ∧
      ∀ q, q ≠ "Link" → (b.addHeaders p w r).header q = w.header q) ∧
    (∀ L, b.pushHeaders r.Path = none → b.pushHeaders (p.version ++ r.Path) = some L →
      (b.addHeaders p w r).header "Link" = w.header "Link" ++ L.map linkHeader.String ∧
      ∀ q, q ≠ "Link" → (b.addHeaders p w r).header q = w.header q) ∧
    (b.pushHeaders r.Path = none → b.pushHeaders (p.version ++ r.Path) = none →
      b.addHeaders p w r = w) := by
  refine ⟨?_, ?_, ?_⟩
  · intro L h
    exact addHeaders_found b p w r L (Or.inl h)
  · intro L h₁ h₂
    exact addHeaders_found b p w r L (Or.inr ⟨h₁, h₂⟩)
  · intro h₁ h₂
    unfold build.addHeaders
    simp only [h₁, h₂]

/-- A list stored under `/static/app.js` and a request for the bare path
`app.js`, for `addHeaders_lookup`. -/
theorem addHeaders_lookup_witness :
    prefixedKeyBuild.pushHeaders "app.js" = none ∧
    prefixedKeyBuild.pushHeaders (exampleServer.version ++ "app.js") = some [depLink] ∧
    (prefixedKeyBuild.addHeaders exampleServer freshResponse
        { Path := "app.js", UserAgent := "" }).header "Link" =
      freshResponse.header "Link" ++ [depLink].map linkHeader.String ∧
    (prefixedKeyBuild.addHeaders exampleServer freshResponse
        { Path := "app.js", UserAgent := "" }).header "Link" =
      ["</static/dep.js>; rel=preload; as=script"] :=
  ⟨by rfl, by rfl,
    ((addHeaders_lookup prefixedKeyBuild exampleServer freshResponse
      { Path := "app.js", UserAgent := "" }).2.1 [depLink] (by rfl) (by rfl)).1,
    by rfl⟩

/-- C8 as stated fails in its second case: a list stored under the bare key
`app.js` is not resolved by a request for `/static/app.js` (the response gets no
`Link` header).  In its first case it also needs the bare key to be absent:
with lists under both `/static/app.js` and `app.js`, a request for `app.js`
gets the list of the bare key. -/
theorem addHeaders_lookup_counterexample :
    (bareKeyBuild.pushHeaders "app.js" = some [depLink] ∧
      (bareKeyBuild.addHeaders exampleServer freshResponse
        { Path := exampleServer.version ++ "app.js", UserAgent := "" }).header "Link" = []) ∧
    (bothKeysBuild.pushHeaders (exampleServer.version ++ "app.js") = some [depLink] ∧
      (bothKeysBuild.addHeaders exampleServer freshResponse
        { Path := "app.js", UserAgent := "" }).header "Link" =
        ["</static/app.css>; rel=preload; as=style"]) :=
  ⟨⟨by rfl, by rfl⟩, ⟨by rfl, by rfl⟩⟩

/-! ## The static handler -/

theorem HasSuffix_iff (s suffix : String) :
    HasSuffix s suffix = true ↔ ∃ pre : String, s = pre ++ suffix := by
  unfold HasSuffix
  rw [List.isSuffixOf_iff_suffix]
  constructor
  · rintro ⟨t, ht⟩
    refine ⟨⟨t⟩, ?_⟩
    apply String.ext
    rw [String.data_append, ht]
  · rintro ⟨pre, rfl⟩
    exact ⟨pre.data, by rw [String.data_append]⟩

/-- The header map that `staticHandler` has built when it replies with the
error or hands the response over: the policy headers are set and
`addHeaders` has added at most `Link` headers. -/
theorem staticHandler_handover (p : PRPL) (files : Files)
    (next : ResponseWriter → Request → ResponseWriter)
    (sc : ResponseWriter → Request → String → Int → String → ResponseWriter)
    (w : ResponseWriter) (r : Request) :
    ∃ w2 : ResponseWriter,
      ((∃ pre : String, r.Path = pre ++ "service-worker.js") →
        w2.header "Service-Worker-Allowed" = ["/"] ∧
        w2.header "Cache-Control" = ["private, max-age=0"]) ∧
      ((¬ ∃ pre : String, r.Path = pre ++ "service-worker.js") →
        w2.header "Cache-Control" = ["public, max-age=31536000, immutable"] ∧
        w2.header "Service-Worker-Allowed" = w.header "Service-Worker-Allowed") ∧
      ((findBuild p.builds (p.browserCapabilities r.UserAgent) = none ∧
          staticHandler p files next sc w r = httpError w2 "This browser is not supported" 500) ∨
        (∃ b, findBuild p.builds (p.browserCapabilities r.UserAgent) = some b ∧
          files r.Path = none ∧ staticHandler p files next sc w r = next w2 r) ∨
        (∃ b f, findBuild p.builds (p.browserCapabilities r.UserAgent) = some b ∧
          files r.Path = some f ∧
          staticHandler p files next sc w r = sc w2 r r.Path f.modTime f.data)) := by
  have hset : ∀ w1 : ResponseWriter,
      w1.header =
        (if HasSuffix r.Path "service-worker.js" = true then
          (w.header.Set "Service-Worker-Allowed" "/").Set "Cache-Control" CacheNeverPrivate
        else w.header.Set "Cache-Control" CacheImmutable) →
      ((∃ pre : String, r.Path = pre ++ "service-worker.js") →
        w1.header "Service-Worker-Allowed" = ["/"] ∧
        w1.header "Cache-Control" = ["private, max-age=0"]) ∧
      ((¬ ∃ pre : String, r.Path = pre ++ "service-worker.js") →
        w1.header "Cache-Control" = ["public, max-age=31536000, immutable"] ∧
        w1.header "Service-Worker-Allowed" = w.header "Service-Worker-Allowed") := by
    intro w1 hw1
    constructor
    · intro hs
      rw [hw1, if_pos ((HasSuffix_iff r.Path "service-worker.js").2 hs)]
      simp [Header.Set, CacheNeverPrivate]
    · intro hs
      have hsuf : ¬ HasSuffix r.Path "service-worker.js" = true :=
        fun h => hs ((HasSuffix_iff _ _).1 h)
      rw [hw1, if_neg hsuf]
      simp [Header.Set, CacheImmutable]
  obtain ⟨w1, hw1⟩ : ∃ w1 : ResponseWriter, w1 =
      { w with
        header :=
          if HasSuffix r.Path "service-worker.js" = true then
            (w.header.Set "Service-Worker-Allowed" "/").Set "Cache-Control" CacheNeverPrivate
          else w.header.Set "Cache-Control" CacheImmutable } := ⟨_, rfl⟩
  obtain ⟨h₁, h₂⟩ := hset w1 (by rw [hw1])
  cases hf : findBuild p.builds (p.browserCapabilities r.UserAgent) with
  | none =>
    refine ⟨w1, h₁, h₂, Or.inl ⟨rfl, ?_⟩⟩
    rw [hw1]
    simp only [staticHandler, hf]
  | some b =>
    have hcc := addHeaders_header_other b p w1 r "Cache-Control" (by decide)
    have hswa := addHeaders_header_other b p w1 r "Service-Worker-Allowed" (by decide)
    refine ⟨b.addHeaders p w1 r, ?_, ?_, Or.inr ?_⟩
    · intro hs
      rw [hcc, hswa]
      exact h₁ hs
    · intro hs
      rw [hcc, hswa]
      exact h₂ hs
    · cases hfile : files r.Path with
      | none =>
        refine Or.inl ⟨b, rfl, rfl, ?_⟩
        rw [hw1]
        simp only [staticHandler, hf, hfile]
      | some f =>
        refine Or.inr ⟨b, f, rfl, rfl, ?_⟩
        rw [hw1]
        simp only [staticHandler, hf, hfile]

theorem httpError_header_other (w : ResponseWriter) (message : String) (code : Nat)
    (q : String) (h₁ : q ≠ "Content-Length") (h₂ : q ≠ "Content-Type")
    (h₃ : q ≠ "X-Content-Type-Options") : (httpError w message code).header q = w.header q := by
  simp [httpError, Header.Set, Header.Del, h₁, h₂, h₃]

/-- C9 (amended): the handler of `staticHandler` sets, for a URL path that
ends in `service-worker.js`, `Service-Worker-Allowed: /` and
`Cache-Control: private, max-age=0`, and for every other path
`Cache-Control: public, max-age=31536000, immutable`, leaving
`Service-Worker-Allowed` as it found it, whichever build is selected and also
when none is.  These headers are in the header map with which the handler
replies with the error (no build), or which it hands to `http.ServeContent`
or to the next handler; the response carries them when no build is selected,
and otherwise when the delegate leaves the two headers in place. -/
theorem staticHandler_cache_headers (p : PRPL) (files : Files)
    (next : ResponseWriter → Request → ResponseWriter)
    (sc : ResponseWriter → Request → String → Int → String → ResponseWriter)
    (w : ResponseWriter) (r : Request) :
    (∃ w2 : ResponseWriter,
      ((∃ pre : String, r.Path = pre ++ "service-worker.js") →
        w2.header "Service-Worker-Allowed" = ["/"] ∧
        w2.header "Cache-Control" = ["private, max-age=0"]) ∧
      ((¬ ∃ pre : String, r.Path = pre ++ "service-worker.js") →
        w2.header "Cache-Control" = ["public, max-age=31536000, immutable"] ∧
        w2.header "Service-Worker-Allowed" = w.header "Service-Worker-Allowed") ∧
      ((findBuild p.builds (p.browserCapabilities r.UserAgent) = none ∧
          staticHandler p files next sc w r = httpError w2 "This browser is not supported" 500) ∨
        (∃ b, findBuild p.builds (p.browserCapabilities r.UserAgent) = some b ∧
          files r.Path = none ∧ staticHandler p files next sc w r = next w2 r) ∨
        (∃ b f, findBuild p.builds (p.browserCapabilities r.UserAgent) = some b ∧
          files r.Path = some f ∧
          staticHandler p files next sc w r = sc w2 r r.Path f.modTime f.data))) ∧
    ((findBuild p.builds (p.browserCapabilities r.UserAgent) = none ∨
        ((∀ w1 r1 q, q = "Cache-Control" ∨ q = "Service-Worker-Allowed" →
            (next w1 r1).header q = w1.header q) ∧
          (∀ w1 r1 name modTime data q, q = "Cache-Control" ∨ q = "Service-Worker-Allowed" →
            (sc w1 r1 name modTime data).header q = w1.header q))) →
      ((∃ pre : String, r.Path = pre ++ "service-worker.js") →
        (staticHandler p files next sc w r).header "Service-Worker-Allowed" = ["/"] ∧
        (staticHandler p files next sc w r).header "Cache-Control" = ["private, max-age=0"]) ∧
      ((¬ ∃ pre : String, r.Path = pre ++ "service-worker.js") →
        (staticHandler p files next sc w r).header "Cache-Control" =
          ["public, max-age=31536000, immutable"] ∧
        (staticHandler p files next sc w r).header "Service-Worker-Allowed" =
          w.header "Service-Worker-Allowed")) := by
  refine ⟨staticHandler_handover p files next sc w r, ?_⟩
  intro hkeep
  obtain ⟨w2, h₁, h₂, hres⟩ := staticHandler_handover p files next sc w r
  have hcarry : (staticHandler p files next sc w r).header "Cache-Control" =
        w2.header "Cache-Control" ∧
      (staticHandler p files next sc w r).header "Service-Worker-Allowed" =
        w2.header "Service-Worker-Allowed" := by
    rcases hres with ⟨-, he⟩ | ⟨b, hb, -, he⟩ | ⟨b, f, hb, -, he⟩
    · rw [he]
      exact ⟨httpError_header_other _ _ _ _ (by decide) (by decide) (by decide),
        httpError_header_other _ _ _ _ (by decide) (by decide) (by decide)⟩
    · rcases hkeep with hnone | ⟨hn, -⟩
      · rw [hb] at hnone
        cases hnone
      · rw [he]
        exact ⟨hn _ _ _ (Or.inl rfl), hn _ _ _ (Or.inr rfl)⟩
    · rcases hkeep with hnone | ⟨-, hs⟩
      · rw [hb] at hnone
        cases hnone
      · rw [he]
        exact ⟨hs _ _ _ _ _ _ (Or.inl rfl), hs _ _ _ _ _ _ (Or.inr rfl)⟩
  rw [hcarry.1, hcarry.2]
  exact ⟨h₁, h₂⟩

/-- A request for a service worker and a request for a script, both found by
the next handler, for `staticHandler_cache_headers`. -/
theorem staticHandler_cache_headers_witness :
    ((∃ pre : String, "modern/service-worker.js" = pre ++ "service-worker.js") ∧
      (staticHandler exampleServer noFiles plainNext plainServeContent freshResponse
          { Path := "modern/service-worker.js", UserAgent := "" }).header
          "Service-Worker-Allowed" = ["/"] ∧
      (staticHandler exampleServer noFiles plainNext plainServeContent freshResponse
          { Path := "modern/service-worker.js", UserAgent := "" }).header
          "Cache-Control" = ["private, max-age=0"]) ∧
    ((¬ ∃ pre : String, "modern/app.js" = pre ++ "service-worker.js") ∧
      (staticHandler exampleServer noFiles plainNext plainServeContent freshResponse
          { Path := "modern/app.js", UserAgent := "" }).header
          "Cache-Control" = ["public, max-age=31536000, immutable"] ∧
      (staticHandler exampleServer noFiles plainNext plainServeContent freshResponse
          { Path := "modern/app.js", UserAgent := "" }).header
          "Service-Worker-Allowed" = freshResponse.header "Service-Worker-Allowed") :=
  ⟨⟨⟨"modern/", rfl⟩,
      ((staticHandler_cache_headers exampleServer noFiles plainNext plainServeContent
        freshResponse { Path := "modern/service-worker.js", UserAgent := "" }).2
        (Or.inr ⟨fun _ _ _ _ => rfl, fun _ _ _ _ _ _ _ => rfl⟩)).1 ⟨"modern/", rfl⟩⟩,
    ⟨fun h => absurd ((HasSuffix_iff _ _).2 h) (by decide),
      ((staticHandler_cache_headers exampleServer noFiles plainNext plainServeContent
        freshResponse { Path := "modern/app.js", UserAgent := "" }).2
        (Or.inr ⟨fun _ _ _ _ => rfl, fun _ _ _ _ _ _ _ => rfl⟩)).2
        (fun h => absurd ((HasSuffix_iff _ _).2 h) (by decide))⟩⟩

/-- C9 as stated fails for a file that does not exist: the handler hands the
response to the next handler, and the file server's reply with status 404
drops `Cache-Control`, so the response does not carry the policy, neither for
a script nor for a service worker. -/
theorem staticHandler_cache_headers_counterexample :
    (staticHandler exampleServer noFiles fileServerNotFound plainServeContent freshResponse
        { Path := "modern/missing.js", UserAgent := "" }).header "Cache-Control" = [] ∧
    (staticHandler exampleServer noFiles fileServerNotFound plainServeContent freshResponse
        { Path := "modern/service-worker.js", UserAgent := "" }).header "Cache-Control" = [] ∧
    (staticHandler exampleServer noFiles fileServerNotFound plainServeContent freshResponse
        { Path := "modern/missing.js", UserAgent := "" }).body =
      Body.written 404 ("404 page not found" ++ String.singleton (Char.ofNat 10)) :=
  ⟨by rfl, by rfl, by rfl⟩

end prpl
